import Mathlib

/-!
Verification of the LZW / PackBits codec repository (lzw.py, packbits.py,
lzwfilter.py) against its natural-language specification.

Byte streams are modelled as `List ℕ` (each element a byte value < 256),
Python `bytes` values as `List ℕ`, Python dicts as association lists in
insertion order, and bit buffers as `List Bool` (most significant bit
first).  Functions that raise exceptions return `Except String`.
-/

set_option autoImplicit false

namespace Packbits

/-- Embedding of `packbits.unpack` (packbits.py lines 11-51).  The Python
loop reads a header byte `n`; `n < 128` copies the next `n + 1` bytes
(`instream.read(n + 1)` returns fewer at end of file), `n == 128` is a
no-op, and otherwise one byte is read and written `257 - n` times
(`instream.read(1)` returns `b''` at end of file, so nothing is written
and the loop then terminates). -/
def unpack : List ℕ → List ℕ
  | [] => []
  | n :: rest =>
    if n < 128 then
      rest.take (n + 1) ++ unpack (rest.drop (n + 1))
    else if n = 128 then
      unpack rest
    else
      match rest with
      | [] => []
      | b :: r => List.replicate (257 - n) b ++ unpack r
termination_by l => l.length
decreasing_by
  · simp only [List.length_drop, List.length_cons]; omega
  · simp only [List.length_cons]; omega
  · simp only [List.length_cons]; omega

/-- Embedding of the replicate-run branch of `packbits.ship` (packbits.py
lines 96-108): the `while chunk[0] > 128` loop emits 128-byte replicate
chunks (header `257 - 128 = 129`); the residual count `k ∈ [2, 128]` is
emitted as header `257 - k`; a residual count of 1 makes
`bytes([257 - 1])` raise `ValueError`, caught and re-shipped as a literal
chunk (header `len - 1` followed by the content); a zero count ships
nothing (the "skipping empty chunk" branch, unreachable from `pack`). -/
def shipRun : ℕ → List ℕ → List ℕ
  | count, s =>
    if 128 < count then (129 :: s) ++ shipRun (count - 128) s
    else if 2 ≤ count then (257 - count) :: s
    else if count = 1 then
      (if s.length ≠ 0 then (s.length - 1) :: s else [])
    else []
termination_by count _ => count
decreasing_by omega

/-- Embedding of `packbits.ship` (packbits.py lines 87-110) as the bytes it
writes for one chunk.  A chunk is a pair: tag `1` marks a literal run with
the content list, tag `0` marks the raw end-of-data marker, and any other
tag is a replicate count whose content is the single repeated byte. -/
def ship (c : ℕ × List ℕ) : List ℕ :=
  if c.1 = 1 then
    (if c.2.length ≠ 0 then (c.2.length - 1) :: c.2 else [])
  else if c.1 ≠ 0 then shipRun c.1 c.2
  else c.2

/-- Bytes written for a list of chunks, in order. -/
def shipAll (cs : List (ℕ × List ℕ)) : List ℕ :=
  (cs.map ship).flatten

/-- The raw bytes a chunk stands for: a literal chunk is its content, a
replicate chunk of count `k` and content `[b]` is `k` copies of `b`. -/
def expand (c : ℕ × List ℕ) : List ℕ :=
  if c.1 = 1 then c.2 else (List.replicate c.1 c.2).flatten

/-- Raw bytes for a list of chunks. -/
def expandAll (cs : List (ℕ × List ℕ)) : List ℕ :=
  (cs.map expand).flatten

/-- Well-formedness of a chunk as produced by `pack`: a literal of at most
128 bytes, or a replicate of count at least 2 whose content is one byte. -/
def wfChunk (c : ℕ × List ℕ) : Prop :=
  (c.1 = 1 ∧ c.2.length ≤ 128) ∨ (2 ≤ c.1 ∧ ∃ b, c.2 = [b])

theorem unpack_nil : unpack [] = [] := by
  rw [unpack.eq_def]

theorem unpack_literal (n : ℕ) (rest : List ℕ) (h : n < 128) :
    unpack (n :: rest) = rest.take (n + 1) ++ unpack (rest.drop (n + 1)) := by
  rw [unpack.eq_def]
  simp only [h, if_pos]

theorem unpack_noop (rest : List ℕ) : unpack (128 :: rest) = unpack rest := by
  rw [unpack.eq_def]
  norm_num

theorem unpack_replicate (n b : ℕ) (r : List ℕ) (h : 128 < n) :
    unpack (n :: b :: r) = List.replicate (257 - n) b ++ unpack r := by
  rw [unpack.eq_def]
  have h1 : ¬ n < 128 := by omega
  have h2 : ¬ n = 128 := by omega
  simp only [h1, h2, if_neg, if_false]

theorem unpack_replicate_eof (n : ℕ) (h : 128 < n) : unpack [n] = [] := by
  rw [unpack.eq_def]
  have h1 : ¬ n < 128 := by omega
  have h2 : ¬ n = 128 := by omega
  simp only [h1, h2, if_neg, if_false]

/-- Shipping then decoding a literal chunk of `L ∈ [1, 128]` bytes yields
the content back, in front of whatever follows. -/
theorem unpack_ship_literal (s rest : List ℕ) (hs : s ≠ []) (hle : s.length ≤ 128) :
    unpack ((s.length - 1) :: (s ++ rest)) = s ++ unpack rest := by
  have hpos : 0 < s.length := List.length_pos.mpr hs
  have hlt : s.length - 1 < 128 := by omega
  rw [unpack_literal _ _ hlt]
  have hlen : s.length - 1 + 1 = s.length := by omega
  rw [hlen, List.take_append_of_le_length le_rfl, List.take_length,
    List.drop_append_of_le_length le_rfl, List.drop_length, List.nil_append]

/-- Shipping then decoding a replicate run of count ≥ 1 yields the
replicated byte, in front of whatever follows. -/
theorem unpack_shipRun (count b : ℕ) (rest : List ℕ) (h1 : 1 ≤ count) :
    unpack (shipRun count [b] ++ rest) = List.replicate count b ++ unpack rest := by
  induction count using Nat.strong_induction_on with
  | _ count ih =>
    rw [shipRun]
    by_cases hbig : 128 < count
    · have hrec : count - 128 < count := by omega
      have hge : 1 ≤ count - 128 := by omega
      rw [if_pos hbig]
      simp only [List.cons_append, List.singleton_append, List.append_assoc,
        List.nil_append]
      rw [unpack_replicate 129 b _ (by omega)]
      rw [ih _ hrec hge]
      have he : (257 - 129 : ℕ) = 128 := by omega
      rw [he, ← List.append_assoc, ← List.replicate_add]
      have he2 : 128 + (count - 128) = count := by omega
      rw [he2]
    · rw [if_neg hbig]
      by_cases h2 : 2 ≤ count
      · rw [if_pos h2]
        simp only [List.cons_append, List.singleton_append, List.nil_append]
        rw [unpack_replicate _ b _ (by omega)]
        have he : 257 - (257 - count) = count := by omega
        rw [he]
      · have hc1 : count = 1 := by omega
        subst hc1
        rw [if_neg h2, if_pos rfl]
        have hne : ([b] : List ℕ).length ≠ 0 := by simp
        rw [if_pos hne]
        simp only [List.length_singleton, List.cons_append, List.singleton_append]
        rw [unpack_literal _ _ (by omega)]
        simp

theorem flatten_replicate_singleton (k b : ℕ) :
    (List.replicate k [b]).flatten = List.replicate k b := by
  induction k with
  | zero => simp
  | succ n ih => simp [List.replicate_succ, ih]

theorem shipAll_nil : shipAll [] = [] := by simp [shipAll]

theorem shipAll_cons (c : ℕ × List ℕ) (cs : List (ℕ × List ℕ)) :
    shipAll (c :: cs) = ship c ++ shipAll cs := by simp [shipAll]

theorem shipAll_append (a b : List (ℕ × List ℕ)) :
    shipAll (a ++ b) = shipAll a ++ shipAll b := by simp [shipAll]

theorem expandAll_nil : expandAll [] = [] := by simp [expandAll]

theorem expandAll_cons (c : ℕ × List ℕ) (cs : List (ℕ × List ℕ)) :
    expandAll (c :: cs) = expand c ++ expandAll cs := by simp [expandAll]

theorem expandAll_append (a b : List (ℕ × List ℕ)) :
    expandAll (a ++ b) = expandAll a ++ expandAll b := by simp [expandAll]

/-- Decoding bytes shipped for one well-formed chunk yields its expansion. -/
theorem unpack_ship (c : ℕ × List ℕ) (rest : List ℕ) (hwf : wfChunk c) :
    unpack (ship c ++ rest) = expand c ++ unpack rest := by
  rcases hwf with ⟨h1, hlen⟩ | ⟨h2, b, hb⟩
  · rcases c with ⟨tag, s⟩
    simp only at h1 hlen
    subst h1
    by_cases hs : s = []
    · subst hs; simp [ship, expand]
    · have hne : s.length ≠ 0 := by simpa [List.length_eq_zero] using hs
      have hship : ship (1, s) = (s.length - 1) :: s := by simp [ship, hne]
      have hexp : expand (1, s) = s := by simp [expand]
      rw [hship, hexp, List.cons_append]
      exact unpack_ship_literal s rest hs hlen
  · rcases c with ⟨tag, s⟩
    simp only at h2 hb
    subst hb
    rw [ship, expand]
    have htag1 : ¬ tag = 1 := by omega
    have htag0 : tag ≠ 0 := by omega
    rw [if_neg htag1, if_neg htag1, if_pos htag0]
    rw [unpack_shipRun _ _ _ (by omega), flatten_replicate_singleton]

/-- Decoding bytes shipped for a list of well-formed chunks yields their
concatenated expansions. -/
theorem unpack_shipAll (cs : List (ℕ × List ℕ)) (rest : List ℕ)
    (hwf : ∀ c ∈ cs, wfChunk c) :
    unpack (shipAll cs ++ rest) = expandAll cs ++ unpack rest := by
  induction cs with
  | nil => rw [shipAll_nil, expandAll_nil, List.nil_append, List.nil_append]
  | cons c cs ih =>
    have hc : wfChunk c := hwf c (by simp)
    have hcs : ∀ x ∈ cs, wfChunk x := fun x hx => hwf x (by simp [hx])
    rw [shipAll_cons, expandAll_cons, List.append_assoc]
    rw [unpack_ship c _ hc, ih hcs, List.append_assoc]

/-- State of `packbits.pack` (packbits.py lines 53-144): the remaining
input stream, the working buffer `bytestring`, the pending chunk list,
and the bytes written to `outstream` so far. -/
structure PackSt where
  input : List ℕ
  bytestring : List ℕ
  chunks : List (ℕ × List ℕ)
  out : List ℕ

/-- Embedding of `packbits.purge` (packbits.py lines 111-123): with
`final` set it appends the no-op end-of-data marker `[0, b'\x80']` and an
empty literal, then every chunk but the last is shipped and removed. -/
def purge (final : Bool) (st : PackSt) : PackSt :=
  let cs := if final then st.chunks ++ [(0, [128]), (1, [])] else st.chunks
  { st with out := st.out ++ shipAll cs.dropLast,
            chunks := cs.drop (cs.length - 1) }

/-- Embedding of the chunk-update branches of the `pack` inner loop
(packbits.py lines 133-142): a run of `count` copies of `b` is merged
into a trailing literal (when `count < 3`, the last chunk is a literal
and it has room), merged into a trailing replicate of the same byte
(when `count ≥ 3`), or appended as a new chunk.  The Python code indexes
`chunks[-1]`, which always exists; the `none` arm is unreachable. -/
def addRun (chunks : List (ℕ × List ℕ)) (count b : ℕ) : List (ℕ × List ℕ) :=
  match chunks.getLast? with
  | none => chunks ++ [(count, [b])]
  | some last =>
    if count < 3 then
      if last.1 = 1 ∧ last.2.length < 129 - count then
        chunks.dropLast ++ [(1, last.2 ++ List.replicate count b)]
      else chunks ++ [(count, [b])]
    else
      if last.1 ≠ 1 ∧ last.2 = [b] then
        chunks.dropLast ++ [(last.1 + count, last.2)]
      else chunks ++ [(count, [b])]

theorem dropWhile_headD_lt (l : List ℕ) (h : l ≠ []) :
    (l.dropWhile (· == l.headD 0)).length < l.length := by
  cases l with
  | nil => exact absurd rfl h
  | cons x xs =>
    rw [List.headD_cons, List.dropWhile_cons]
    simp only [beq_self_eq_true, if_true]
    have := (xs.dropWhile_sublist (· == x)).length_le
    simp only [List.length_cons]
    omega

/-- The run-stripping step of the `pack` inner loop (packbits.py lines
130-143): `byte = bytestring[0:1]`, `substring = bytestring.lstrip(byte)`,
`count = len(bytestring) - len(substring)`; the run goes into the chunk
list and `bytestring = substring`. -/
def packMove (st : PackSt) : PackSt :=
  { st with
    bytestring := st.bytestring.dropWhile (· == st.bytestring.headD 0),
    chunks := addRun st.chunks
      (st.bytestring.takeWhile (· == st.bytestring.headD 0)).length
      (st.bytestring.headD 0) }

/-- The refill step of the `pack` inner loop (packbits.py lines 127-129):
when fewer than 128 bytes are buffered, read another `buffersize = 4096`
block (`b''` at end of file) and purge the shipped chunks. -/
def packRefill (st : PackSt) : PackSt :=
  if st.bytestring.length < 128 then
    purge false { st with
      bytestring := st.bytestring ++ st.input.take 4096,
      input := st.input.drop 4096 }
  else st

/-- One iteration of the `while bytestring:` inner loop of `packbits.pack`
(packbits.py lines 126-143), for nonempty `bytestring`. -/
def packAdvance (st : PackSt) : PackSt :=
  packMove (packRefill st)

theorem packMove_measure (st : PackSt) (h : st.bytestring ≠ []) :
    (packMove st).input.length + (packMove st).bytestring.length <
      st.input.length + st.bytestring.length := by
  have hlt := dropWhile_headD_lt st.bytestring h
  simp only [packMove]
  omega

theorem packRefill_fields (st : PackSt) :
    (packRefill st).input.length + (packRefill st).bytestring.length =
      st.input.length + st.bytestring.length ∧
    (st.bytestring ≠ [] → (packRefill st).bytestring ≠ []) := by
  rw [packRefill]
  by_cases hlen : st.bytestring.length < 128
  · rw [if_pos hlen]
    constructor
    · simp only [purge, List.length_append, List.length_take, List.length_drop]
      omega
    · intro h hc
      simp only [purge] at hc
      exact h (List.append_eq_nil.mp hc).1
  · rw [if_neg hlen]
    exact ⟨rfl, fun h => h⟩

theorem packAdvance_measure (st : PackSt) (h : st.bytestring ≠ []) :
    (packAdvance st).input.length + (packAdvance st).bytestring.length <
      st.input.length + st.bytestring.length := by
  rw [packAdvance]
  obtain ⟨heq, hne⟩ := packRefill_fields st
  have := packMove_measure (packRefill st) (hne h)
  omega

/-- The `while bytestring:` inner loop of `packbits.pack` (packbits.py
lines 126-143), iterating `packAdvance` until the buffer is empty. -/
def packInner (st : PackSt) : PackSt :=
  if st.bytestring = [] then st
  else packInner (packAdvance st)
termination_by st.input.length + st.bytestring.length
decreasing_by
  rename_i h
  exact packAdvance_measure st h

theorem packInner_measure (st : PackSt) :
    (packInner st).input.length + (packInner st).bytestring.length ≤
      st.input.length + st.bytestring.length := by
  induction st using packInner.induct with
  | case1 st h => rw [packInner, if_pos h]
  | case2 st h ih =>
    rw [packInner, if_neg h]
    have := packAdvance_measure st h
    omega

theorem packInner_bytestring (st : PackSt) : (packInner st).bytestring = [] := by
  induction st using packInner.induct with
  | case1 st h => rw [packInner, if_pos h]; exact h
  | case2 st h ih => rw [packInner, if_neg h]; exact ih

/-- Embedding of the outer `while bytestring or (nextblock := ...)` loop of
`packbits.pack` (packbits.py lines 124-125): `bytestring` is empty whenever
this loop's condition is evaluated (initially and after each inner loop),
so the loop reads the next `buffersize` block and runs the inner loop until
a read returns `b''`. -/
def packOuter (st : PackSt) : PackSt :=
  if st.bytestring = [] ∧ st.input = [] then st
  else packOuter (packInner { st with
    bytestring := st.bytestring ++ st.input.take 4096,
    input := st.input.drop 4096 })
termination_by st.input.length + st.bytestring.length
decreasing_by
  rename_i hcond
  have hne : st.bytestring ++ st.input.take 4096 ≠ [] := by
    intro hc
    rcases List.append_eq_nil.mp hc with ⟨h1, h2⟩
    rcases not_and_or.mp hcond with h | h
    · exact h h1
    · apply h
      cases hin : st.input with
      | nil => rfl
      | cons x xs =>
        rw [hin] at h2
        simp at h2
  have hunf : packInner { st with
      bytestring := st.bytestring ++ st.input.take 4096,
      input := st.input.drop 4096 } = packInner (packAdvance { st with
      bytestring := st.bytestring ++ st.input.take 4096,
      input := st.input.drop 4096 }) := by
    rw [packInner]
    rw [if_neg hne]
  have h1 := packInner_measure (packAdvance { st with
    bytestring := st.bytestring ++ st.input.take 4096,
    input := st.input.drop 4096 })
  have h2 := packAdvance_measure { st with
    bytestring := st.bytestring ++ st.input.take 4096,
    input := st.input.drop 4096 } hne
  rw [hunf]
  simp only [List.length_append, List.length_take, List.length_drop] at h1 h2 ⊢
  omega

/-- Initial state of `packbits.pack` (packbits.py lines 85-86):
`bytestring = b''` and `chunks = [[1, b'']]`. -/
def packInit (input : List ℕ) : PackSt :=
  { input := input, bytestring := [], chunks := [(1, [])], out := [] }

/-- Embedding of `packbits.pack` (packbits.py lines 53-144) as a function
from the input byte stream to the bytes written: run the outer loop from
the initial state, then `purge(chunks, True)`. -/
def pack (input : List ℕ) : List ℕ :=
  (purge true (packOuter (packInit input))).out

theorem packOuter_done (st : PackSt) :
    (packOuter st).bytestring = [] ∧ (packOuter st).input = [] := by
  induction st using packOuter.induct with
  | case1 st h => rw [packOuter, if_pos h]; exact h
  | case2 st h ih => rw [packOuter, if_neg h]; exact ih

theorem expand_run (count b : ℕ) : expand (count, [b]) = List.replicate count b := by
  rw [expand]
  by_cases h : count = 1
  · subst h; rw [if_pos rfl]; rfl
  · rw [if_neg h]; exact flatten_replicate_singleton count b

theorem dropLast_append_drop (l : List (ℕ × List ℕ)) :
    l.dropLast ++ l.drop (l.length - 1) = l := by
  induction l using List.reverseRecOn with
  | nil => simp
  | append_singleton xs a ih => simp [List.dropLast_concat]

/-- Effect of `addRun` on chunk well-formedness and on the raw bytes the
chunk list stands for: a leading run of `count ≥ 1` copies of `b` is
appended to the expansion, whichever branch is taken. -/
theorem addRun_spec (chunks : List (ℕ × List ℕ)) (count b : ℕ)
    (hne : chunks ≠ []) (hwf : ∀ c ∈ chunks, wfChunk c) (hc : 1 ≤ count) :
    addRun chunks count b ≠ [] ∧ (∀ c ∈ addRun chunks count b, wfChunk c) ∧
      expandAll (addRun chunks count b) = expandAll chunks ++ List.replicate count b := by
  induction chunks using List.reverseRecOn with
  | nil => exact absurd rfl hne
  | append_singleton cs last ih =>
    clear ih
    have hlast : wfChunk last := hwf last (by simp)
    have hcs : ∀ c ∈ cs, wfChunk c := fun c h => hwf c (by simp [h])
    rw [addRun, List.getLast?_concat]
    dsimp only
    have hwfnew : wfChunk (count, [b]) := by
      by_cases h1 : count = 1
      · left; subst h1; simp [wfChunk]
      · right; exact ⟨by omega, b, rfl⟩
    by_cases hsmall : count < 3
    · rw [if_pos hsmall]
      by_cases hmerge : last.1 = 1 ∧ last.2.length < 129 - count
      · rw [if_pos hmerge, List.dropLast_concat]
        obtain ⟨htag, hroom⟩ := hmerge
        refine ⟨by simp, ?_, ?_⟩
        · intro c hcmem
          rcases List.mem_append.mp hcmem with hm | hm
          · exact hcs c hm
          · have : c = (1, last.2 ++ List.replicate count b) := by simpa using hm
            subst this
            left
            constructor
            · rfl
            · simp only [List.length_append, List.length_replicate]
              omega
        · rw [expandAll_append, expandAll_append, expandAll_cons, expandAll_nil,
            expandAll_cons, expandAll_nil]
          have hel : expand last = last.2 := by rw [expand, if_pos htag]
          have hen : expand (1, last.2 ++ List.replicate count b) =
              last.2 ++ List.replicate count b := by
            rw [expand, if_pos rfl]
          rw [hel, hen]
          simp [List.append_assoc]
      · rw [if_neg hmerge]
        refine ⟨by simp, ?_, ?_⟩
        · intro c hcmem
          rcases List.mem_append.mp hcmem with hm | hm
          · exact hwf c hm
          · have : c = (count, [b]) := by simpa using hm
            subst this
            exact hwfnew
        · rw [expandAll_append, expandAll_cons, expandAll_nil, expand_run]
          simp
    · rw [if_neg hsmall]
      by_cases hmerge : last.1 ≠ 1 ∧ last.2 = [b]
      · rw [if_pos hmerge, List.dropLast_concat]
        obtain ⟨htag, hcontent⟩ := hmerge
        have h2 : 2 ≤ last.1 := by
          rcases hlast with ⟨h1, _⟩ | ⟨h2, _⟩
          · exact absurd h1 htag
          · exact h2
        refine ⟨by simp, ?_, ?_⟩
        · intro c hcmem
          rcases List.mem_append.mp hcmem with hm | hm
          · exact hcs c hm
          · have : c = (last.1 + count, last.2) := by simpa using hm
            subst this
            right
            exact ⟨by omega, b, hcontent⟩
        · rw [expandAll_append, expandAll_append, expandAll_cons, expandAll_nil,
            expandAll_cons, expandAll_nil]
          have hel : expand last = List.replicate last.1 b := by
            have : last = (last.1, [b]) := by
              rcases last with ⟨t, s⟩
              simp only at hcontent
              rw [hcontent]
            rw [this]
            exact expand_run _ _
          have hen : expand (last.1 + count, last.2) =
              List.replicate (last.1 + count) b := by
            rw [hcontent]
            exact expand_run _ _
          rw [hel, hen, List.replicate_add]
          simp [List.append_assoc]
      · rw [if_neg hmerge]
        refine ⟨by simp, ?_, ?_⟩
        · intro c hcmem
          rcases List.mem_append.mp hcmem with hm | hm
          · exact hwf c hm
          · have : c = (count, [b]) := by simpa using hm
            subst this
            right
            exact ⟨by omega, b, rfl⟩
        · rw [expandAll_append, expandAll_cons, expandAll_nil, expand_run]
          simp

/-- Loop invariant of `pack`: the chunk list is nonempty and well-formed,
and the bytes already written are exactly the shipped form of some
well-formed chunk sequence. -/
def InvSt (st : PackSt) : Prop :=
  st.chunks ≠ [] ∧ (∀ c ∈ st.chunks, wfChunk c) ∧
    ∃ pre, (∀ c ∈ pre, wfChunk c) ∧ st.out = shipAll pre

/-- The bytes the whole machine state stands for: what the written output
plus pending chunks decode to, followed by the unconsumed bytes. -/
def packVal (st : PackSt) : List ℕ :=
  unpack (st.out ++ (shipAll st.chunks ++ [128])) ++ st.bytestring ++ st.input

theorem packVal_expand (st : PackSt) (pre : List (ℕ × List ℕ))
    (hpre : ∀ c ∈ pre, wfChunk c) (hout : st.out = shipAll pre)
    (hch : ∀ c ∈ st.chunks, wfChunk c) :
    unpack (st.out ++ (shipAll st.chunks ++ [128])) =
      expandAll pre ++ expandAll st.chunks := by
  rw [hout, unpack_shipAll _ _ hpre, unpack_shipAll _ _ hch, unpack_noop,
    unpack_nil, List.append_nil]

theorem purge_false_spec (st : PackSt) (hInv : InvSt st) :
    InvSt (purge false st) ∧ packVal (purge false st) = packVal st := by
  obtain ⟨hne, hwf, pre, hpre, hout⟩ := hInv
  have hsplit := dropLast_append_drop st.chunks
  constructor
  · refine ⟨?_, ?_, pre ++ st.chunks.dropLast, ?_, ?_⟩
    · simp only [purge, if_neg (Bool.false_ne_true)]
      cases hch : st.chunks using List.reverseRecOn with
      | nil => exact absurd hch hne
      | append_singleton xs a =>
        simp [List.drop_left' (by simp [List.dropLast_concat] : xs.length = (xs ++ [a]).length - 1)]
    · intro c hc
      simp only [purge, if_neg (Bool.false_ne_true)] at hc
      exact hwf c ((st.chunks.drop_sublist _).subset hc)
    · intro c hc
      rcases List.mem_append.mp hc with hm | hm
      · exact hpre c hm
      · exact hwf c (st.chunks.dropLast_sublist.subset hm)
    · simp only [purge, if_neg (Bool.false_ne_true)]
      rw [hout, shipAll_append]
  · rw [packVal, packVal]
    simp only [purge, if_neg (Bool.false_ne_true)]
    rw [List.append_assoc st.out,
      ← List.append_assoc (shipAll st.chunks.dropLast), ← shipAll_append,
      hsplit]

theorem invSt_reload (st : PackSt) (bs inp : List ℕ) (hInv : InvSt st) :
    InvSt { st with bytestring := bs, input := inp } := hInv

theorem packRefill_spec (st : PackSt) (hInv : InvSt st) :
    InvSt (packRefill st) ∧ packVal (packRefill st) = packVal st := by
  rw [packRefill]
  by_cases hlen : st.bytestring.length < 128
  · rw [if_pos hlen]
    have hmoved : InvSt { st with
        bytestring := st.bytestring ++ st.input.take 4096,
        input := st.input.drop 4096 } := invSt_reload st _ _ hInv
    obtain ⟨h1, h2⟩ := purge_false_spec _ hmoved
    refine ⟨h1, ?_⟩
    rw [h2, packVal, packVal]
    simp only [List.append_assoc]
    rw [List.take_append_drop]
  · rw [if_neg hlen]
    exact ⟨hInv, rfl⟩

theorem takeWhile_headD_replicate (l : List ℕ) :
    l.takeWhile (· == l.headD 0) =
      List.replicate (l.takeWhile (· == l.headD 0)).length (l.headD 0) := by
  rw [List.eq_replicate_iff]
  refine ⟨rfl, ?_⟩
  intro x hx
  have := List.mem_takeWhile_imp hx
  exact beq_iff_eq.mp this

theorem takeWhile_headD_pos (l : List ℕ) (h : l ≠ []) :
    0 < (l.takeWhile (· == l.headD 0)).length := by
  cases l with
  | nil => exact absurd rfl h
  | cons x xs =>
    rw [List.headD_cons, List.takeWhile_cons]
    simp

theorem packMove_spec (st : PackSt) (hbs : st.bytestring ≠ []) (hInv : InvSt st) :
    InvSt (packMove st) ∧ packVal (packMove st) = packVal st := by
  obtain ⟨hne, hwf, pre, hpre, hout⟩ := hInv
  have hcount := takeWhile_headD_pos st.bytestring hbs
  obtain ⟨hne2, hwf2, hexp⟩ := addRun_spec st.chunks
    (st.bytestring.takeWhile (· == st.bytestring.headD 0)).length
    (st.bytestring.headD 0) hne hwf (by omega)
  constructor
  · exact ⟨hne2, hwf2, pre, hpre, hout⟩
  · rw [packVal, packVal]
    simp only [packMove]
    rw [packVal_expand { st with
        bytestring := st.bytestring.dropWhile (· == st.bytestring.headD 0),
        chunks := addRun st.chunks
          (st.bytestring.takeWhile (· == st.bytestring.headD 0)).length
          (st.bytestring.headD 0) } pre hpre hout hwf2]
    rw [packVal_expand st pre hpre hout hwf]
    simp only [hexp]
    have hsplit : List.replicate
          (st.bytestring.takeWhile (· == st.bytestring.headD 0)).length
          (st.bytestring.headD 0) ++
        st.bytestring.dropWhile (· == st.bytestring.headD 0) = st.bytestring := by
      conv_rhs => rw [← List.takeWhile_append_dropWhile
        (p := (· == st.bytestring.headD 0)) (l := st.bytestring)]
      rw [← takeWhile_headD_replicate st.bytestring]
    conv_rhs => rw [← hsplit]
    simp only [List.append_assoc]

theorem packAdvance_spec (st : PackSt) (hbs : st.bytestring ≠ []) (hInv : InvSt st) :
    InvSt (packAdvance st) ∧ packVal (packAdvance st) = packVal st := by
  rw [packAdvance]
  obtain ⟨h1, h2⟩ := packRefill_spec st hInv
  have hbs2 : (packRefill st).bytestring ≠ [] := (packRefill_fields st).2 hbs
  obtain ⟨h3, h4⟩ := packMove_spec (packRefill st) hbs2 h1
  exact ⟨h3, by rw [h4, h2]⟩

theorem packInner_spec (st : PackSt) (hInv : InvSt st) :
    InvSt (packInner st) ∧ packVal (packInner st) = packVal st := by
  induction st using packInner.induct with
  | case1 st h => rw [packInner, if_pos h]; exact ⟨hInv, rfl⟩
  | case2 st h ih =>
    rw [packInner, if_neg h]
    obtain ⟨h1, h2⟩ := packAdvance_spec st h hInv
    obtain ⟨h3, h4⟩ := ih h1
    exact ⟨h3, by rw [h4, h2]⟩

theorem packOuter_spec (st : PackSt) (hInv : InvSt st) :
    InvSt (packOuter st) ∧ packVal (packOuter st) = packVal st := by
  induction st using packOuter.induct with
  | case1 st h => rw [packOuter, if_pos h]; exact ⟨hInv, rfl⟩
  | case2 st h ih =>
    rw [packOuter, if_neg h]
    have hmoved : InvSt { st with
        bytestring := st.bytestring ++ st.input.take 4096,
        input := st.input.drop 4096 } := invSt_reload st _ _ hInv
    have hval : packVal { st with
        bytestring := st.bytestring ++ st.input.take 4096,
        input := st.input.drop 4096 } = packVal st := by
      rw [packVal, packVal]
      simp only [List.append_assoc]
      rw [List.take_append_drop]
    obtain ⟨h1, h2⟩ := packInner_spec _ hmoved
    obtain ⟨h3, h4⟩ := ih h1
    exact ⟨h3, by rw [h4, h2, hval]⟩

/-- Round trip of the PackBits embedding: decoding the packed stream
recovers the input exactly. -/
theorem unpack_pack (input : List ℕ) : unpack (pack input) = input := by
  have hInit : InvSt (packInit input) := by
    refine ⟨by simp [packInit], ?_, [], by simp, by rw [shipAll_nil]; rfl⟩
    intro c hc
    simp only [packInit, List.mem_singleton] at hc
    subst hc
    left
    simp
  obtain ⟨⟨hne, hwf, pre, hpre, hout⟩, hval⟩ := packOuter_spec _ hInit
  obtain ⟨hbs, hin⟩ := packOuter_done (packInit input)
  have hout128 : pack input =
      (packOuter (packInit input)).out ++
        (shipAll (packOuter (packInit input)).chunks ++ [128]) := by
    rw [pack]
    simp only [purge, if_pos trivial]
    have hdl : ((packOuter (packInit input)).chunks ++
        [(0, [128]), (1, [])]).dropLast =
        (packOuter (packInit input)).chunks ++ [(0, [128])] := by
      rw [show ([((0 : ℕ), [(128 : ℕ)]), (1, [])] :
            List (ℕ × List ℕ)) = [(0, [128])] ++ [(1, [])] from rfl,
        ← List.append_assoc, List.dropLast_concat]
    rw [hdl, shipAll_append]
    have hship : shipAll [((0 : ℕ), [(128 : ℕ)])] = [128] := by
      rw [shipAll_cons, shipAll_nil, List.append_nil, ship]
      norm_num
    rw [hship]
  have hu : unpack (pack input) = packVal (packOuter (packInit input)) := by
    rw [hout128, packVal, hbs, hin, List.append_nil, List.append_nil]
  rw [hu, hval, packVal]
  simp only [packInit]
  rw [shipAll_cons, shipAll_nil]
  have hship1 : ship ((1 : ℕ), ([] : List ℕ)) = [] := by
    rw [ship]
    norm_num
  rw [hship1]
  simp [unpack_noop, unpack_nil]

/-- The PackBits doctest input `b'111aaaaaaaabbbdccc5555555555s'`
(packbits.py line 71) as bytes. -/
def sampleInput : List ℕ :=
  [49, 49, 49] ++ List.replicate 8 97 ++ [98, 98, 98, 100, 99, 99, 99] ++
    List.replicate 10 53 ++ [115]

/-- The output bytes the packbits.py doctest (line 75) and the spec claim
for `pack(b'111aaaaaaaabbbdccc5555555555s')`:
`fe 31 f9 61 fe 62 00 64 fe 63 f7 35 00 73`. -/
def claimedPackOutput : List ℕ :=
  [254, 49, 249, 97, 254, 98, 0, 100, 254, 99, 247, 53, 0, 115]

end Packbits

namespace Lzw

/-- Special LZW code numbers (lzw.py lines 23-27). -/
def CLEAR_CODE : ℕ := 256

def END_OF_INFO_CODE : ℕ := 257

def CODE_SIZE : ℕ := 256

def MINBITS : ℕ := 9

def MAXBITS : ℕ := 12

/-- Session configuration: the `EOI_IS_EOD` environment variable (lzw.py
line 26) modelled as a boolean, and the `minbits` / `maxbits` parameters
of `encode` and `decode`. -/
structure Cfg where
  eoiIsEod : Bool
  minbits : ℕ
  maxbits : ℕ

/-- Fuel-driven helper computing the binary digits of `n`, least
significant first; `fuel ≥ n` suffices since the argument halves. -/
def natBitsRevAux : ℕ → ℕ → List Bool
  | 0, _ => []
  | fuel + 1, n => if n = 0 then [] else (n % 2 == 1) :: natBitsRevAux fuel (n / 2)

/-- Binary digits of `n`, most significant first, as Python `format(n, 'b')`
produces them (`'0'` for zero). -/
def natToBits (n : ℕ) : List Bool :=
  if n = 0 then [false] else (natBitsRevAux n n).reverse

/-- Python `'{0:0{1}b}'.format(number, bitlength)` (lzw.py line 370):
the binary digits of `number`, left padded with zeros to `bitlength`
characters (longer numbers keep all their digits). -/
def padBits (w n : ℕ) : List Bool :=
  List.replicate (w - (natToBits n).length) false ++ natToBits n

/-- Python `int(bincode, 2)`: most-significant-bit-first binary value. -/
def bitsToNat (bs : List Bool) : ℕ :=
  bs.foldl (fun a b => 2 * a + (if b then 1 else 0)) 0

/-- Python `format(rawbyte, '08b')` (lzw.py line 168). -/
def bits8 (b : ℕ) : List Bool :=
  padBits 8 b

/-- Fuel-driven helper for `bit_length`; `fuel ≥ n` suffices. -/
def bitLenAux : ℕ → ℕ → ℕ
  | 0, _ => 0
  | fuel + 1, n => if n = 0 then 0 else bitLenAux fuel (n / 2) + 1

/-- Python `int.bit_length`: the number of binary digits of `n`, with
`(0).bit_length() == 0`. -/
def bit_length (n : ℕ) : ℕ :=
  bitLenAux n n

theorem bitLenAux_invariant (f1 : ℕ) : ∀ f2 n, n ≤ f1 → n ≤ f2 →
    bitLenAux f1 n = bitLenAux f2 n := by
  induction f1 with
  | zero =>
    intro f2 n h1 h2
    interval_cases n
    cases f2 with
    | zero => rfl
    | succ m => simp [bitLenAux]
  | succ m ih =>
    intro f2 n h1 h2
    cases f2 with
    | zero =>
      interval_cases n
      simp [bitLenAux]
    | succ k =>
      rw [bitLenAux, bitLenAux]
      by_cases hn : n = 0
      · rw [if_pos hn, if_pos hn]
      · rw [if_neg hn, if_neg hn]
        have hd : n / 2 < n := Nat.div_lt_self (by omega) (by omega)
        rw [ih k (n / 2) (by omega) (by omega)]

theorem bit_length_zero : bit_length 0 = 0 := rfl

theorem bit_length_succ (n : ℕ) (h : n ≠ 0) :
    bit_length n = bit_length (n / 2) + 1 := by
  rcases n with _ | m
  · exact absurd rfl h
  · rw [bit_length, bitLenAux, if_neg h]
    rw [bit_length]
    congr 1
    exact bitLenAux_invariant m _ _ (by omega) le_rfl

theorem bit_length_le (m : ℕ) : ∀ k, bit_length m ≤ k ↔ m < 2 ^ k := by
  induction m using Nat.strong_induction_on with
  | _ m ih =>
    intro k
    by_cases hm : m = 0
    · subst hm
      rw [bit_length_zero]
      have h2 : 0 < 2 ^ k := pow_pos (by omega) k
      constructor <;> intro <;> omega
    · rw [bit_length_succ m hm]
      cases k with
      | zero =>
        constructor
        · omega
        · intro hc
          simp at hc
          omega
      | succ j =>
        rw [Nat.succ_le_succ_iff, ih (m / 2) (Nat.div_lt_self (by omega) (by omega)) j,
          Nat.div_lt_iff_lt_mul (by omega), pow_succ]

theorem lt_bit_length (m k : ℕ) : k < bit_length m ↔ 2 ^ k ≤ m := by
  rw [← not_iff_not]
  push_neg
  exact bit_length_le m k

theorem bit_length_two_pow (k : ℕ) : bit_length (2 ^ k) = k + 1 := by
  have h1 : bit_length (2 ^ k) ≤ k + 1 := by
    rw [bit_length_le]
    exact Nat.pow_lt_pow_right (by omega) (by omega)
  have h2 : k < bit_length (2 ^ k) := by
    rw [lt_bit_length]
  omega

theorem bit_length_mono (m n : ℕ) (h : m ≤ n) : bit_length m ≤ bit_length n := by
  rw [bit_length_le]
  have : n < 2 ^ bit_length n := by
    rw [← bit_length_le]
  omega

/-- Incrementing a number bumps its bit length exactly at powers of two. -/
theorem bit_length_succ_eq (m : ℕ) :
    bit_length (m + 1) =
      if m + 1 = 2 ^ bit_length m then bit_length m + 1 else bit_length m := by
  by_cases h : m + 1 = 2 ^ bit_length m
  · rw [if_pos h, h, bit_length_two_pow]
  · rw [if_neg h]
    have hlt : m < 2 ^ bit_length m := by rw [← bit_length_le]
    have h1 : bit_length (m + 1) ≤ bit_length m := by
      rw [bit_length_le]
      omega
    have h2 : bit_length m ≤ bit_length (m + 1) := bit_length_mono _ _ (by omega)
    omega

/-- Byte-shipping loop of `write_code` (lzw.py lines 374-379): while at
least 8 bits are buffered, the leftmost 8 become one output byte. -/
def shipBytes : List Bool → List ℕ × List Bool
  | b0 :: b1 :: b2 :: b3 :: b4 :: b5 :: b6 :: b7 :: rest =>
    let p := shipBytes rest
    (bitsToNat [b0, b1, b2, b3, b4, b5, b6, b7] :: p.1, p.2)
  | l => ([], l)

/-- Encoder state of `lzw.encode` (lzw.py lines 509-517): the bit buffer,
current bit length, codes written since the last ClearCode, the
string-to-code table, the current prefix (`Omega` in the TIFF pseudocode),
and the bytes written.  `trace` is a proof-side observer recording each
code passed to `write_code` together with the bit length it was written
at; it affects nothing else. -/
structure EncSt where
  bitstream : List Bool
  bitlength : ℕ
  writecount : ℕ
  table : List (List ℕ × ℕ)
  pfx : List ℕ
  out : List ℕ
  trace : List (ℕ × ℕ)

/-- Embedding of `initialize_string_table` (lzw.py lines 344-348): the
reverse of `newdict(False)`, mapping each single byte to its code. -/
def initStringTable : List (List ℕ × ℕ) :=
  (List.range 256).map (fun k => ([k], k))

/-- Embedding of `write_code` (lzw.py lines 360-401) except for the
dictionary-full call to `clear_string_table`, which is signalled by the
returned flag: append the code's bits at the current bit length, ship
whole bytes, update `writecount` (reset to `CODE_SIZE` for ClearCode,
incremented otherwise, including for `None`), then either pad and flush
the remaining bits (EndOfInformation with a nonempty buffer) or check the
bit-length trigger `(writecount + 2) == 2 ** bitlength`, bumping
`bitlength` when below `maxbits` and otherwise requesting a table clear. -/
def writeCodeCore (cfg : Cfg) (number : Option ℕ) (st : EncSt) : EncSt × Bool :=
  let st1 := match number with
    | some n => { st with bitstream := st.bitstream ++ padBits st.bitlength n,
                          trace := st.trace ++ [(n, st.bitlength)] }
    | none => st
  let p := shipBytes st1.bitstream
  let st2 := { st1 with out := st1.out ++ p.1, bitstream := p.2 }
  let st3 := if number = some CLEAR_CODE then { st2 with writecount := CODE_SIZE }
             else { st2 with writecount := st2.writecount + 1 }
  if number = some END_OF_INFO_CODE ∧ st3.bitstream ≠ [] then
    ({ st3 with
        out := st3.out ++
          [bitsToNat (st3.bitstream ++ List.replicate (8 - st3.bitstream.length) false)],
        bitstream := [] }, false)
  else if st3.writecount + 2 = 2 ^ st3.bitlength then
    (if st3.bitlength < cfg.maxbits then ({ st3 with bitlength := st3.bitlength + 1 }, false)
     else (st3, true))
  else (st3, false)

/-- Embedding of `clear_string_table` (lzw.py lines 350-358): reset the
table to the 256 single-byte entries, reset `bitlength` to `minbits`, then
write a ClearCode (therefore at the `minbits` width).  The nested
`write_code(CLEAR_CODE)` cannot request another clear, because after it
`writecount` is 256 and the trigger compares `258` with a power of two
(`clear_refire_impossible` below), so the flag is dropped. -/
def clear_string_table (cfg : Cfg) (st : EncSt) : EncSt :=
  (writeCodeCore cfg (some CLEAR_CODE)
    { st with table := initStringTable, bitlength := cfg.minbits }).1

theorem two_pow_ne_258 (k : ℕ) : 2 ^ k ≠ 258 := by
  intro h
  rcases Nat.lt_or_ge k 9 with h9 | h9
  · interval_cases k <;> omega
  · have : 2 ^ 9 ≤ 2 ^ k := Nat.pow_le_pow_right (by omega) h9
    omega

/-- The `write_code(CLEAR_CODE)` nested inside `clear_string_table` never
requests a further clear. -/
theorem clear_refire_impossible (cfg : Cfg) (st : EncSt) :
    (writeCodeCore cfg (some CLEAR_CODE) st).2 = false := by
  have h2 : ¬ (256 + 2 = 2 ^ st.bitlength) := fun hc => two_pow_ne_258 _ hc.symm
  have h3 : ¬ (258 = 2 ^ st.bitlength) := fun hc => two_pow_ne_258 _ hc.symm
  simp [writeCodeCore, CLEAR_CODE, END_OF_INFO_CODE, CODE_SIZE, h2, h3]

/-- Embedding of `write_code` (lzw.py lines 360-401) including the
dictionary-full branch `clear_string_table()`. -/
def write_code (cfg : Cfg) (number : Option ℕ) (st : EncSt) : EncSt :=
  let p := writeCodeCore cfg number st
  if p.2 then clear_string_table cfg p.1 else p.1

/-- Embedding of `add_table_entry` (lzw.py lines 403-452): empty entries
are ignored; otherwise the entry is stored with code
`len(code_from_string) + 2` (the two special codes are not physically in
the table). -/
def add_table_entry (entry : List ℕ) (st : EncSt) : EncSt :=
  if entry = [] then st
  else { st with table := st.table ++ [(entry, st.table.length + 2)] }

/-- One input byte of the `packstrip` loop (lzw.py lines 480-494): extend
the prefix while `prefix + byte` is in the table; otherwise write the
prefix's code, add `prefix + byte` to the table, and restart the prefix
at `byte`. -/
def packstripByte (cfg : Cfg) (st : EncSt) (byte : ℕ) : EncSt :=
  if (st.table.lookup (st.pfx ++ [byte])).isSome then
    { st with pfx := st.pfx ++ [byte] }
  else
    let st1 := write_code cfg (st.table.lookup st.pfx) st
    let st2 := add_table_entry (st1.pfx ++ [byte]) st1
    { st2 with pfx := [byte] }

/-- Embedding of `packstrip` (lzw.py lines 319-508).  An empty strip
writes the pending prefix code and EndOfInformation when `EOI_IS_EOD` is
set (the end-of-file call), and otherwise does nothing.  A nonempty strip
first clears the table (on the first call, or always when `EOI_IS_EOD` is
unset), processes its bytes, and when `EOI_IS_EOD` is unset finishes by
writing the prefix code, resetting the prefix, writing EndOfInformation,
and emptying the table to force a reset on the next strip. -/
def packstrip (cfg : Cfg) (strip : List ℕ) (st : EncSt) : EncSt :=
  if strip = [] then
    if cfg.eoiIsEod then
      let st1 := write_code cfg (st.table.lookup st.pfx) st
      write_code cfg (some END_OF_INFO_CODE) st1
    else st
  else
    let st1 := if st.table.length = 0 ∨ ¬ cfg.eoiIsEod then clear_string_table cfg st else st
    let st2 := strip.foldl (packstripByte cfg) st1
    if ¬ cfg.eoiIsEod then
      let st3 := write_code cfg (st2.table.lookup st2.pfx) st2
      let st4 := { st3 with pfx := [] }
      let st5 := write_code cfg (some END_OF_INFO_CODE) st4
      { st5 with table := [] }
    else st2

/-- The strips read by `encode`'s `while (strip := instream.read(stripsize))`
loop (lzw.py line 518).  The Python loop never terminates for
`stripsize = 0`; only positive strip sizes are used. -/
def stripChunks (size : ℕ) (l : List ℕ) : List (List ℕ) :=
  if size = 0 ∨ l = [] then [] else l.take size :: stripChunks size (l.drop size)
termination_by l.length
decreasing_by
  rename_i h
  push_neg at h
  have h1 : 0 < size := by omega
  have h2 : l ≠ [] := h.2
  have h3 : 0 < l.length := List.length_pos.mpr h2
  simp only [List.length_drop]
  omega

/-- Initial encoder state (lzw.py lines 511-517): `writecount = CODE_SIZE`,
`bitlength = minbits`, empty bit buffer, prefix and table. -/
def initEncSt (cfg : Cfg) : EncSt :=
  { bitstream := [], bitlength := cfg.minbits, writecount := CODE_SIZE,
    table := [], pfx := [], out := [], trace := [] }

/-- Embedding of `lzw.encode` (lzw.py lines 292-527), returning the final
encoder state (its `out` field is what was written to `outstream`):
`packstrip` on each strip, then `packstrip(b'')` when `EOI_IS_EOD` is set. -/
def encode (cfg : Cfg) (stripsize : ℕ) (input : List ℕ) : EncSt :=
  let st := (stripChunks stripsize input).foldl (fun s strip => packstrip cfg strip s)
    (initEncSt cfg)
  if cfg.eoiIsEod then packstrip cfg [] st else st

/-- Embedding of `newdict` (lzw.py lines 38-51): codes 0..255 map to their
single byte; with `specialcodes`, codes 256 and 257 are present mapping
to `None`. -/
def newdict (specialcodes : Bool) : List (ℕ × Option (List ℕ)) :=
  (List.range 256).map (fun k => (k, some [k])) ++
    (if specialcodes then [(CLEAR_CODE, none), (END_OF_INFO_CODE, none)] else [])

/-- Decoder state of `lzw.decode` (lzw.py lines 212-220): the code table,
current bit length, previous decoded value (`OldCode`'s string), output
bytes, and the `end_of_data` flag. -/
structure DecSt where
  table : List (ℕ × Option (List ℕ))
  bitlength : ℕ
  lastvalue : Option (List ℕ)
  out : List ℕ
  endOfData : Bool

/-- Initial decoder state (lzw.py lines 216-220). -/
def initDecSt (cfg : Cfg) (specialcodes : Bool) : DecSt :=
  { table := newdict specialcodes, bitlength := cfg.minbits, lastvalue := none,
    out := [], endOfData := false }

/-- Embedding of `insert` (lzw.py lines 180-211): `AddStringToTable`.
The new entry gets key `len(codedict)`; if
`(newkey + 2).bit_length() == (newkey + 1).bit_length() + 1` and
`bitlength < maxbits`, the bit length is incremented. -/
def insert (maxbits : ℕ) (bytestring : List ℕ) (st : DecSt) : DecSt :=
  let newkey := st.table.length
  let st1 := { st with table := st.table ++ [(newkey, some bytestring)] }
  if bit_length (newkey + 2) = bit_length (newkey + 1) + 1 then
    (if st1.bitlength < maxbits then { st1 with bitlength := st1.bitlength + 1 } else st1)
  else st1

/-- Common tail of the `decode` loop body (lzw.py lines 266-285): write
`codevalue` when present and insert `storevalue`, or else handle the two
special codes: EndOfInformation sets `end_of_data` under `EOI_IS_EOD` and
otherwise only resets `bitlength`; ClearCode reinitialises the table,
resets `bitlength`, and forgets `lastvalue`. -/
def decodeTail (cfg : Cfg) (specialcodes : Bool) (st : DecSt) (code : ℕ)
    (codevalue storevalue : Option (List ℕ)) : DecSt :=
  match codevalue with
  | some cv =>
    let st1 := { st with out := st.out ++ cv }
    let st2 := match storevalue with
      | some sv => insert cfg.maxbits sv st1
      | none => st1
    { st2 with lastvalue := some cv }
  | none =>
    if code = END_OF_INFO_CODE then
      (if cfg.eoiIsEod then { st with endOfData := true }
       else { st with bitlength := cfg.minbits })
    else
      { st with table := newdict specialcodes, bitlength := cfg.minbits,
                lastvalue := none }

/-- Embedding of one iteration of the `decode` loop (lzw.py lines 228-285)
on a delivered code.  A code in the table yields its value (with
`storevalue = lastvalue + codevalue[0:1]`, or `None` right after a clear);
a code not in the table whose predecessor is in the table is the KωK case
(`codevalue = lastvalue + lastvalue[0:1]`); anything else — or a KωK case
with no `lastvalue` — raises `ValueError('Invalid LZW data ...')` (after
logging the hint that the data may be PackBits). -/
def decodeStep (cfg : Cfg) (specialcodes : Bool) (st : DecSt) (code : ℕ) :
    Except String DecSt :=
  match st.table.lookup code with
  | some codevalue =>
    let storevalue : Option (List ℕ) :=
      match st.lastvalue, codevalue with
      | some lv, some cv => some (lv ++ cv.take 1)
      | _, _ => none
    .ok (decodeTail cfg specialcodes st code codevalue storevalue)
  | none =>
    if (st.table.lookup (code - 1)).isSome then
      match st.lastvalue with
      | some lv => .ok (decodeTail cfg specialcodes st code
          (some (lv ++ lv.take 1)) (some (lv ++ lv.take 1)))
      | none => .error "Invalid LZW data"
    else .error "Invalid LZW data"

/-- Embedding of `lzw.decode` driven by an explicit `codegenerator`
(lzw.py line 215 with the `codegenerator` argument supplied, as in the
doctests): fold the loop body over the list of codes. -/
def decodeFromCodes (cfg : Cfg) (specialcodes : Bool) (codes : List ℕ) :
    Except String DecSt :=
  codes.foldlM (decodeStep cfg specialcodes) (initDecSt cfg specialcodes)

/-- Embedding of `nextcode` (lzw.py lines 157-179) producing one code:
read bytes, appending their 8 bits to the buffer, until `bitlength` bits
are available; consume them as the next code.  If the code is
EndOfInformation, any remaining buffered bits must all be zero
(`ValueError('nonzero bits remaining after EOI')` otherwise) and the
buffer is discarded.  End of input with fewer than `bitlength` buffered
bits ends the stream with no further code and no error. -/
def nextcodeExtract (bitlength : ℕ) : List Bool → List ℕ →
    Except String (Option (ℕ × List Bool × List ℕ))
  | _, [] => .ok none
  | bs, byte :: rest =>
    let bs1 := bs ++ bits8 byte
    if bitlength ≤ bs1.length then
      let code := bitsToNat (bs1.take bitlength)
      let residue := bs1.drop bitlength
      if code = END_OF_INFO_CODE then
        (if residue.any id then .error "nonzero bits remaining after EOI"
         else .ok (some (code, [], rest)))
      else .ok (some (code, residue, rest))
    else nextcodeExtract bitlength bs1 rest

theorem nextcodeExtract_consumes (bitlength : ℕ) (bs : List Bool) (input : List ℕ)
    (code : ℕ) (bs2 : List Bool) (rest : List ℕ)
    (h : nextcodeExtract bitlength bs input = .ok (some (code, bs2, rest))) :
    rest.length < input.length := by
  induction input generalizing bs with
  | nil => rw [nextcodeExtract] at h; exact absurd h (by simp)
  | cons byte rest0 ih =>
    rw [nextcodeExtract] at h
    by_cases hle : bitlength ≤ (bs ++ bits8 byte).length
    · rw [if_pos hle] at h
      by_cases heoi : bitsToNat ((bs ++ bits8 byte).take bitlength) = END_OF_INFO_CODE
      · rw [if_pos heoi] at h
        by_cases hres : ((bs ++ bits8 byte).drop bitlength).any id
        · rw [if_pos hres] at h; exact absurd h (by simp)
        · rw [if_neg hres] at h
          simp only [Except.ok.injEq, Option.some.injEq, Prod.mk.injEq] at h
          obtain ⟨-, -, hrest⟩ := h
          subst hrest
          simp
      · rw [if_neg heoi] at h
        simp only [Except.ok.injEq, Option.some.injEq, Prod.mk.injEq] at h
        obtain ⟨-, -, hrest⟩ := h
        subst hrest
        simp
    · rw [if_neg hle] at h
      have := ih _ h
      simp only [List.length_cons]
      omega

/-- Embedding of the `for code in codegenerator` loop of `lzw.decode`
driven by `nextcode` (lzw.py lines 215 and 228): codes are pulled from the
byte stream with the current `bitlength` (which the loop body adjusts) and
fed to the loop body, until `end_of_data` is set or the input is
exhausted. -/
def decodeLoop (cfg : Cfg) (specialcodes : Bool) (st : DecSt) (bs : List Bool)
    (input : List ℕ) : Except String DecSt :=
  if st.endOfData then .ok st
  else match h : nextcodeExtract st.bitlength bs input with
    | .error e => .error e
    | .ok none => .ok st
    | .ok (some (code, bs2, rest)) =>
      match decodeStep cfg specialcodes st code with
      | .error e => .error e
      | .ok st2 => decodeLoop cfg specialcodes st2 bs2 rest
termination_by input.length
decreasing_by
  exact nextcodeExtract_consumes st.bitlength bs input _ _ _ h

/-- Embedding of `lzw.decode` (lzw.py lines 53-290) reading codes from a
byte stream. -/
def decodeBytes (cfg : Cfg) (specialcodes : Bool) (input : List ℕ) :
    Except String DecSt :=
  decodeLoop cfg specialcodes (initDecSt cfg specialcodes) [] input

end Lzw

namespace Lzwfilter

open Lzw (bitsToNat bits8 CLEAR_CODE END_OF_INFO_CODE)

/-- Embedding of `CodeReader.__next__` (lzwfilter.py lines 56-72): while
fewer than `bitlength` bits are buffered, read a byte and append its bits;
at end of file, stop (`StopIteration`, here `none`) only when the buffer
is empty, and otherwise pad the remaining bits with zeroes to `bitlength`
and return that final code.  The leading `bitlength` bits become the
returned code. -/
def codeReaderNext (bitlength : ℕ) (bs : List Bool) (input : List ℕ) :
    Option (ℕ × List Bool × List ℕ) :=
  if bitlength ≤ bs.length then
    some (bitsToNat (bs.take bitlength), bs.drop bitlength, input)
  else
    match input with
    | [] =>
      if bs = [] then none
      else some (bitsToNat (bs ++ List.replicate (bitlength - bs.length) false), [], [])
    | byte :: rest => codeReaderNext bitlength (bs ++ bits8 byte) rest
termination_by input.length
decreasing_by simp only [List.length_cons]; omega

end Lzwfilter

namespace Lzw

/-- Writing a data code (neither ClearCode nor EndOfInformation) advances
`writecount` by one and then applies the bit-length trigger: a bump below
`maxbits`, or a table clear (resetting `writecount` to 256 and `bitlength`
to `minbits`) at `maxbits`. -/
theorem write_code_data (cfg : Cfg) (c : ℕ) (st : EncSt)
    (h1 : c ≠ CLEAR_CODE) (h2 : c ≠ END_OF_INFO_CODE) :
    (write_code cfg (some c) st).writecount =
      (if st.writecount + 1 + 2 = 2 ^ st.bitlength ∧ ¬ st.bitlength < cfg.maxbits
       then CODE_SIZE else st.writecount + 1) ∧
    (write_code cfg (some c) st).bitlength =
      (if st.writecount + 1 + 2 = 2 ^ st.bitlength
       then (if st.bitlength < cfg.maxbits then st.bitlength + 1 else cfg.minbits)
       else st.bitlength) ∧
    (write_code cfg (some c) st).trace =
      st.trace ++ [(c, st.bitlength)] ++
        (if st.writecount + 1 + 2 = 2 ^ st.bitlength ∧ ¬ st.bitlength < cfg.maxbits
         then [(CLEAR_CODE, cfg.minbits)] else []) := by
  have hc1 : ¬ (some c = some CLEAR_CODE) := by simpa using h1
  have hc2 : ¬ (some c = some END_OF_INFO_CODE) := by simpa using h2
  have h3 : ¬ ((some CLEAR_CODE : Option ℕ) = some END_OF_INFO_CODE) := by
    simp [CLEAR_CODE, END_OF_INFO_CODE]
  have h4 : ¬ (CODE_SIZE + 2 = 2 ^ cfg.minbits) := by
    intro hcc
    exact two_pow_ne_258 _ (by rw [← hcc]; rfl)
  rw [write_code, writeCodeCore]
  by_cases htr : st.writecount + 1 + 2 = 2 ^ st.bitlength
  · by_cases hbl : st.bitlength < cfg.maxbits
    · simp [hc1, hc2, htr, hbl]
    · simp [hc1, hc2, htr, hbl, clear_string_table, writeCodeCore, h3, h4]
  · simp [hc1, hc2, htr]

theorem clear_string_table_fields (cfg : Cfg) (st : EncSt) :
    (clear_string_table cfg st).writecount = CODE_SIZE ∧
    (clear_string_table cfg st).bitlength = cfg.minbits ∧
    (clear_string_table cfg st).trace = st.trace ++ [(CLEAR_CODE, cfg.minbits)] ∧
    (clear_string_table cfg st).table = initStringTable := by
  have h3 : ¬ ((some CLEAR_CODE : Option ℕ) = some END_OF_INFO_CODE) := by
    simp [CLEAR_CODE, END_OF_INFO_CODE]
  have h4 : ¬ (CODE_SIZE + 2 = 2 ^ cfg.minbits) := by
    intro hcc
    exact two_pow_ne_258 _ (by rw [← hcc]; rfl)
  rw [clear_string_table, writeCodeCore]
  simp [h3, h4]

theorem insert_fields (maxbits : ℕ) (s : List ℕ) (st : DecSt) :
    (insert maxbits s st).table.length = st.table.length + 1 ∧
    (insert maxbits s st).bitlength =
      (if bit_length (st.table.length + 2) = bit_length (st.table.length + 1) + 1 ∧
          st.bitlength < maxbits
       then st.bitlength + 1 else st.bitlength) := by
  rw [insert]
  by_cases hbump : bit_length (st.table.length + 2) = bit_length (st.table.length + 1) + 1
  · by_cases hbl : st.bitlength < maxbits
    · simp [hbump, hbl]
    · simp [hbump, hbl]
  · simp [hbump]

/-- The `EOI_IS_EOD`-indexed configuration with the default `minbits = 9`
and `maxbits = 12`. -/
def stdCfg (e : Bool) : Cfg :=
  { eoiIsEod := e, minbits := 9, maxbits := 12 }

/-- Encoder state right after a strip-start `clear_string_table` (lzw.py
line 471 on the initial state of `encode`). -/
def encSt0 (e : Bool) : EncSt :=
  clear_string_table (stdCfg e) (initEncSt (stdCfg e))

/-- Encoder state after writing a list of data codes since the clear,
each through `write_code`. -/
def encRunCodes (e : Bool) (cs : List ℕ) : EncSt :=
  cs.foldl (fun s c => write_code (stdCfg e) (some c) s) (encSt0 e)

/-- Decoder state after `n` calls of `insert` since initialisation — one
per data code delivered after the first one following a clear. -/
def decAfter (e : Bool) (n : ℕ) : DecSt :=
  (insert (stdCfg e).maxbits [0])^[n] (initDecSt (stdCfg e) true)

theorem bit_length_le_12 (m : ℕ) (h : m ≤ 4095) : bit_length m ≤ 12 := by
  rw [bit_length_le]
  omega

theorem bit_length_ge_9 (m : ℕ) (h : 256 ≤ m) : 9 ≤ bit_length m := by
  have := (lt_bit_length m 8).mpr (by omega)
  omega

/-- Closed form of the encoder's write-count and bit length after writing
`k ≤ 3837` data codes since a clear: `writecount = 256 + k` and
`bitlength = min 12 (bit_length (258 + k))` — 9 bits up to the 254th code,
10 bits from the 255th, 11 from the 767th, 12 from the 1791st. -/
theorem encRunCodes_closed (e : Bool) (cs : List ℕ)
    (hsp : ∀ c ∈ cs, c ≠ CLEAR_CODE ∧ c ≠ END_OF_INFO_CODE)
    (hlen : cs.length ≤ 3837) :
    (encRunCodes e cs).writecount = 256 + cs.length ∧
    (encRunCodes e cs).bitlength = min 12 (bit_length (258 + cs.length)) := by
  induction cs using List.reverseRecOn with
  | nil =>
    obtain ⟨h1, h2, h3, h4⟩ := clear_string_table_fields (stdCfg e) (initEncSt (stdCfg e))
    refine ⟨h1, ?_⟩
    rw [encRunCodes, List.foldl_nil, encSt0, h2]
    have : bit_length 258 = 9 := by decide
    simp [stdCfg, this]
  | append_singleton cs c ih =>
    have hc := hsp c (by simp)
    have hsp2 : ∀ x ∈ cs, x ≠ CLEAR_CODE ∧ x ≠ END_OF_INFO_CODE :=
      fun x hx => hsp x (by simp [hx])
    have hlen2 : cs.length ≤ 3836 := by
      simp only [List.length_append, List.length_singleton] at hlen
      omega
    obtain ⟨hwc, hbl⟩ := ih hsp2 (by omega)
    have hrw : encRunCodes e (cs ++ [c]) =
        write_code (stdCfg e) (some c) (encRunCodes e cs) := by
      rw [encRunCodes, encRunCodes, List.foldl_append, List.foldl_cons, List.foldl_nil]
    obtain ⟨gwc, gbl, -⟩ := write_code_data (stdCfg e) c (encRunCodes e cs) hc.1 hc.2
    have hble : bit_length (258 + cs.length) ≤ 12 := bit_length_le_12 _ (by omega)
    have hbge : 9 ≤ bit_length (258 + cs.length) := bit_length_ge_9 _ (by omega)
    have hmin : (encRunCodes e cs).bitlength = bit_length (258 + cs.length) := by
      rw [hbl]
      omega
    rw [hwc, hmin] at gwc gbl
    simp only [stdCfg] at gwc gbl
    have hLsimp : (cs ++ [c]).length = cs.length + 1 := by simp
    have hRsimp : 258 + (cs.length + 1) = 258 + cs.length + 1 := by omega
    rw [hrw]
    simp only [stdCfg]
    by_cases htr : 256 + cs.length + 1 + 2 = 2 ^ bit_length (258 + cs.length)
    · have hlt : bit_length (258 + cs.length) < 12 := by
        by_contra hge12
        have h12 : bit_length (258 + cs.length) = 12 := by omega
        rw [h12] at htr
        have hpw : (2 : ℕ) ^ 12 = 4096 := by norm_num
        omega
      have hsucc : bit_length (258 + cs.length + 1) = bit_length (258 + cs.length) + 1 := by
        rw [bit_length_succ_eq (258 + cs.length), if_pos (by omega)]
      constructor
      · rw [gwc, if_neg (fun hcc => hcc.2 hlt), hLsimp]
        omega
      · rw [gbl, if_pos htr, if_pos hlt, hLsimp, hRsimp, hsucc]
        omega
    · have hsucc : bit_length (258 + cs.length + 1) = bit_length (258 + cs.length) := by
        rw [bit_length_succ_eq (258 + cs.length), if_neg (by omega)]
      constructor
      · rw [gwc, if_neg (fun hcc => htr hcc.1), hLsimp]
        omega
      · rw [gbl, if_neg htr, hLsimp, hRsimp, hsucc]
        omega

/-- Closed form of the decoder's table size and bit length after `n`
inserts: `min 12 (bit_length (259 + n))` — bumping to 10 bits exactly
after entry 510 is filled (the 253rd insert), to 11 after 1022, to 12
after 2046, then capped by `maxbits`. -/
theorem decAfter_closed (e : Bool) (n : ℕ) :
    (decAfter e n).table.length = 258 + n ∧
    (decAfter e n).bitlength = min 12 (bit_length (259 + n)) := by
  induction n with
  | zero =>
    constructor
    · simp [decAfter, initDecSt, newdict]
    · have : bit_length 259 = 9 := by decide
      simp [decAfter, initDecSt, stdCfg, this]
  | succ n ih =>
    obtain ⟨hlen, hbl⟩ := ih
    have hrw : decAfter e (n + 1) = insert 12 [0] (decAfter e n) := by
      rw [decAfter, decAfter, Function.iterate_succ_apply']
      rfl
    obtain ⟨glen, gbl⟩ := insert_fields 12 [0] (decAfter e n)
    rw [hrw, glen, gbl, hlen, hbl]
    refine ⟨by omega, ?_⟩
    have hge : 9 ≤ bit_length (259 + n) := bit_length_ge_9 _ (by omega)
    have he2 : 258 + n + 1 = 259 + n := by omega
    have hR : 259 + (n + 1) = 259 + n + 1 := by omega
    by_cases hcond : 258 + n + 2 = 2 ^ bit_length (258 + n + 1)
    · have hcond2 : 259 + n + 1 = 2 ^ bit_length (259 + n) := by
        rw [← he2]
        omega
      have hsucc : bit_length (259 + n + 1) = bit_length (259 + n) + 1 := by
        rw [bit_length_succ_eq (259 + n), if_pos hcond2]
      have hbump : bit_length (258 + n + 2) = bit_length (258 + n + 1) + 1 := by
        have e1 : 258 + n + 2 = 259 + n + 1 := by omega
        rw [e1, he2, hsucc]
      by_cases hlt : bit_length (259 + n) < 12
      · rw [if_pos ⟨hbump, by omega⟩, hR, hsucc]
        omega
      · rw [if_neg (by push_neg; intro h; omega), hR, hsucc]
        omega
    · have hcond2 : ¬ (259 + n + 1 = 2 ^ bit_length (259 + n)) := by
        rw [← he2]
        intro hcc
        exact hcond (by omega)
      have hsucc : bit_length (259 + n + 1) = bit_length (259 + n) := by
        rw [bit_length_succ_eq (259 + n), if_neg hcond2]
      have hbump : ¬ (bit_length (258 + n + 2) = bit_length (258 + n + 1) + 1) := by
        have e1 : 258 + n + 2 = 259 + n + 1 := by omega
        rw [e1, he2, hsucc]
        omega
      rw [if_neg (by push_neg; intro h; exact absurd h hbump), hR, hsucc]

theorem lookup_isSome_iff_mem (l : List (ℕ × Option (List ℕ))) (k : ℕ) :
    (l.lookup k).isSome ↔ k ∈ l.map Prod.fst := by
  induction l with
  | nil => simp [List.lookup]
  | cons a l ih =>
    rw [List.lookup]
    by_cases hk : k = a.1
    · subst hk
      simp
    · have : (k == a.1) = false := by simpa using hk
      rw [this]
      simp only [List.map_cons, List.mem_cons]
      rw [ih]
      constructor
      · exact Or.inr
      · rintro (h | h)
        · exact absurd h hk
        · exact h

theorem newdict_true_keys (k : ℕ) :
    k ∈ (newdict true).map Prod.fst ↔ k < 258 := by
  rw [newdict]
  simp only [if_pos, List.map_append, List.map_map, List.mem_append]
  constructor
  · rintro (h | h)
    · simp only [List.mem_map, List.mem_range] at h
      obtain ⟨x, hx, hxe⟩ := h
      simp only [Function.comp_apply] at hxe
      omega
    · simp only [List.map_cons, List.mem_cons, CLEAR_CODE, END_OF_INFO_CODE] at h
      rcases h with h | h | h
      · omega
      · omega
      · simp at h
  · intro h
    by_cases h256 : k < 256
    · left
      simp only [List.mem_map, List.mem_range]
      exact ⟨k, h256, rfl⟩
    · right
      simp only [List.map_cons, List.mem_cons, CLEAR_CODE, END_OF_INFO_CODE]
      omega

theorem newdict_true_length : (newdict true).length = 258 := by
  rw [newdict]
  simp

theorem newdict_true_contig (k : ℕ) :
    (((newdict true).lookup k).isSome) ↔ k < (newdict true).length := by
  rw [lookup_isSome_iff_mem, newdict_true_keys, newdict_true_length]

theorem initStringTable_length : initStringTable.length = 256 := by
  rw [initStringTable]
  simp

/-- `writeCodeCore` never changes the string table. -/
theorem writeCodeCore_table (cfg : Cfg) (number : Option ℕ) (st : EncSt) :
    (writeCodeCore cfg number st).1.table = st.table := by
  rw [writeCodeCore.eq_def]
  rcases number with _ | n <;> dsimp only <;> split_ifs <;> rfl

/-- `writeCodeCore` appends exactly the traced code (if any). -/
theorem writeCodeCore_trace (cfg : Cfg) (number : Option ℕ) (st : EncSt) :
    (writeCodeCore cfg number st).1.trace =
      st.trace ++ (match number with
        | some n => [(n, st.bitlength)]
        | none => []) := by
  rw [writeCodeCore.eq_def]
  rcases number with _ | n <;> dsimp only <;> split_ifs <;> simp

/-- `write_code` only ever appends to the trace. -/
theorem write_code_trace_ext (cfg : Cfg) (number : Option ℕ) (st : EncSt) :
    ∃ d, (write_code cfg number st).trace = st.trace ++ d := by
  rw [write_code]
  by_cases hf : (writeCodeCore cfg number st).2
  · rw [if_pos hf]
    obtain ⟨-, -, htr, -⟩ := clear_string_table_fields cfg (writeCodeCore cfg number st).1
    rw [htr, writeCodeCore_trace]
    exact ⟨_, by rw [List.append_assoc]⟩
  · rw [if_neg hf, writeCodeCore_trace]
    exact ⟨_, rfl⟩

/-- Writing EndOfInformation traces it at the current width, possibly
followed by one dictionary-full ClearCode. -/
theorem write_code_eoi_trace (cfg : Cfg) (st : EncSt) :
    ∃ tail, (write_code cfg (some END_OF_INFO_CODE) st).trace =
        st.trace ++ (END_OF_INFO_CODE, st.bitlength) :: tail ∧
      (tail = [] ∨ tail = [(CLEAR_CODE, cfg.minbits)]) := by
  rw [write_code]
  by_cases hf : (writeCodeCore cfg (some END_OF_INFO_CODE) st).2
  · rw [if_pos hf]
    obtain ⟨-, -, htr, -⟩ :=
      clear_string_table_fields cfg (writeCodeCore cfg (some END_OF_INFO_CODE) st).1
    rw [htr, writeCodeCore_trace]
    exact ⟨[(CLEAR_CODE, cfg.minbits)], by simp, Or.inr rfl⟩
  · rw [if_neg hf, writeCodeCore_trace]
    exact ⟨[], by simp, Or.inl rfl⟩

theorem add_table_entry_trace (entry : List ℕ) (st : EncSt) :
    (add_table_entry entry st).trace = st.trace := by
  rw [add_table_entry]
  split_ifs <;> rfl

theorem add_table_entry_table_ge (entry : List ℕ) (st : EncSt) :
    st.table.length ≤ (add_table_entry entry st).table.length := by
  rw [add_table_entry]
  split_ifs <;> simp

theorem write_code_table_ge (cfg : Cfg) (number : Option ℕ) (st : EncSt)
    (h : 256 ≤ st.table.length) : 256 ≤ (write_code cfg number st).table.length := by
  rw [write_code]
  by_cases hf : (writeCodeCore cfg number st).2
  · rw [if_pos hf]
    obtain ⟨-, -, -, htb⟩ := clear_string_table_fields cfg (writeCodeCore cfg number st).1
    rw [htb, initStringTable_length]
  · rw [if_neg hf, writeCodeCore_table]
    exact h

theorem packstripByte_trace_ext (cfg : Cfg) (st : EncSt) (b : ℕ) :
    ∃ d, (packstripByte cfg st b).trace = st.trace ++ d := by
  rw [packstripByte]
  split_ifs with h
  · exact ⟨[], by simp⟩
  · obtain ⟨d, hd⟩ := write_code_trace_ext cfg (st.table.lookup st.pfx) st
    refine ⟨d, ?_⟩
    show (add_table_entry _ _).trace = _
    rw [add_table_entry_trace]
    exact hd

theorem packstripByte_table_ge (cfg : Cfg) (st : EncSt) (b : ℕ)
    (h : 256 ≤ st.table.length) : 256 ≤ (packstripByte cfg st b).table.length := by
  rw [packstripByte]
  split_ifs with hl
  · exact h
  · show 256 ≤ (add_table_entry _ _).table.length
    exact le_trans (write_code_table_ge cfg _ st h) (add_table_entry_table_ge _ _)

theorem foldl_packstripByte_trace_ext (cfg : Cfg) (l : List ℕ) :
    ∀ st : EncSt, ∃ d, (l.foldl (packstripByte cfg) st).trace = st.trace ++ d := by
  induction l with
  | nil => exact fun st => ⟨[], by simp⟩
  | cons b l ih =>
    intro st
    obtain ⟨d1, h1⟩ := packstripByte_trace_ext cfg st b
    obtain ⟨d2, h2⟩ := ih (packstripByte cfg st b)
    exact ⟨d1 ++ d2, by rw [List.foldl_cons, h2, h1, List.append_assoc]⟩

theorem foldl_packstripByte_table_ge (cfg : Cfg) (l : List ℕ) :
    ∀ st : EncSt, 256 ≤ st.table.length →
      256 ≤ (l.foldl (packstripByte cfg) st).table.length := by
  induction l with
  | nil => exact fun _ h => h
  | cons b l ih =>
    intro st h
    rw [List.foldl_cons]
    exact ih _ (packstripByte_table_ge cfg st b h)

/-- With `EOI_IS_EOD` unset, each nonempty strip's trace contribution begins
with a ClearCode at `minbits` width and ends with EndOfInformation, possibly
followed by one dictionary-full ClearCode. -/
theorem packstrip_false_trace (cfg : Cfg) (st : EncSt) (strip : List ℕ)
    (he : cfg.eoiIsEod = false) (hne : strip ≠ []) :
    ∃ mid w tail,
      (packstrip cfg strip st).trace =
        st.trace ++ (CLEAR_CODE, cfg.minbits) :: (mid ++ (END_OF_INFO_CODE, w) :: tail) ∧
      (tail = [] ∨ tail = [(CLEAR_CODE, cfg.minbits)]) := by
  have hpack : packstrip cfg strip st =
      (let st2 := strip.foldl (packstripByte cfg) (clear_string_table cfg st)
       let st3 := write_code cfg (st2.table.lookup st2.pfx) st2
       let st5 := write_code cfg (some END_OF_INFO_CODE) { st3 with pfx := [] }
       { st5 with table := [] }) := by
    rw [packstrip, if_neg hne,
      if_pos (Or.inr (show ¬ cfg.eoiIsEod by simp [he])),
      if_pos (show ¬ cfg.eoiIsEod by simp [he])]
  obtain ⟨-, -, htr0, -⟩ := clear_string_table_fields cfg st
  obtain ⟨d1, hd1⟩ :=
    foldl_packstripByte_trace_ext cfg strip (clear_string_table cfg st)
  set st2 := strip.foldl (packstripByte cfg) (clear_string_table cfg st) with hst2
  obtain ⟨d2, hd2⟩ := write_code_trace_ext cfg (st2.table.lookup st2.pfx) st2
  set st3 := write_code cfg (st2.table.lookup st2.pfx) st2 with hst3
  obtain ⟨tail, htl, hor⟩ := write_code_eoi_trace cfg { st3 with pfx := [] }
  refine ⟨d1 ++ d2, ({ st3 with pfx := [] } : EncSt).bitlength, tail, ?_, hor⟩
  rw [hpack]
  show (write_code cfg (some END_OF_INFO_CODE) { st3 with pfx := [] }).trace = _
  rw [htl]
  show st3.trace ++ _ = _
  rw [hd2, hd1, htr0]
  simp

/-- With `EOI_IS_EOD` set, a nonempty strip on a nonempty table is the plain
byte loop: nothing extra is written at strip boundaries, and the prefix is
carried over. -/
theorem packstrip_true_carry (cfg : Cfg) (st : EncSt) (strip : List ℕ)
    (he : cfg.eoiIsEod = true) (hne : strip ≠ []) (htb : st.table.length ≠ 0) :
    packstrip cfg strip st = strip.foldl (packstripByte cfg) st := by
  rw [packstrip, if_neg hne]
  simp only [he, not_true_eq_false, or_false, if_neg htb, if_false]

/-- With `EOI_IS_EOD` set, the first strip (empty table) clears the table
and then runs the plain byte loop. -/
theorem packstrip_true_first (cfg : Cfg) (st : EncSt) (strip : List ℕ)
    (he : cfg.eoiIsEod = true) (hne : strip ≠ []) (htb : st.table.length = 0) :
    packstrip cfg strip st = strip.foldl (packstripByte cfg) (clear_string_table cfg st) := by
  rw [packstrip, if_neg hne]
  simp only [he, not_true_eq_false, or_false, if_pos htb, if_false]

theorem stripChunks_flatten (size : ℕ) (l : List ℕ) (hs : size ≠ 0) :
    (stripChunks size l).flatten = l := by
  suffices h : ∀ (n : ℕ) (l : List ℕ), l.length ≤ n → (stripChunks size l).flatten = l by
    exact h l.length l le_rfl
  intro n
  induction n with
  | zero =>
    intro l hl
    have hnil : l = [] := by
      cases l with
      | nil => rfl
      | cons a l => simp at hl
    rw [hnil, stripChunks.eq_def]
    simp
  | succ n ih =>
    intro l hl
    by_cases hnil : l = []
    · rw [hnil, stripChunks.eq_def]
      simp
    · rw [stripChunks.eq_def, if_neg (by push_neg; exact ⟨hs, hnil⟩)]
      have hlen : (l.drop size).length ≤ n := by
        simp only [List.length_drop]
        omega
      rw [List.flatten_cons, ih (l.drop size) hlen, List.take_append_drop]

theorem stripChunks_mem_ne_nil (size : ℕ) (l c : List ℕ) (hs : size ≠ 0)
    (hm : c ∈ stripChunks size l) : c ≠ [] := by
  suffices h : ∀ (n : ℕ) (l : List ℕ), l.length ≤ n → c ∈ stripChunks size l → c ≠ [] by
    exact h l.length l le_rfl hm
  intro n
  induction n with
  | zero =>
    intro l hl hm2
    have hnil : l = [] := by
      cases l with
      | nil => rfl
      | cons a l => simp at hl
    rw [hnil, stripChunks.eq_def] at hm2
    simp at hm2
  | succ n ih =>
    intro l hl hm2
    by_cases hnil : l = []
    · rw [hnil, stripChunks.eq_def] at hm2
      simp at hm2
    · rw [stripChunks.eq_def, if_neg (by push_neg; exact ⟨hs, hnil⟩)] at hm2
      rcases List.mem_cons.mp hm2 with hc | hc
      · rw [hc]
        simp only [ne_eq, List.take_eq_nil_iff]
        push_neg
        exact ⟨hs, hnil⟩
      · exact ih (l.drop size) (by simp only [List.length_drop]; omega) hc

theorem foldl_packstrip_true (cfg : Cfg) (he : cfg.eoiIsEod = true) (cs : List (List ℕ)) :
    ∀ st : EncSt, (∀ c ∈ cs, c ≠ []) → 256 ≤ st.table.length →
      cs.foldl (fun s strip => packstrip cfg strip s) st =
        cs.flatten.foldl (packstripByte cfg) st := by
  induction cs with
  | nil =>
    intro st _ _
    simp
  | cons c cs ih =>
    intro st hne htb
    rw [List.foldl_cons, List.flatten_cons, List.foldl_append]
    rw [packstrip_true_carry cfg st c he (hne c (by simp)) (by omega)]
    exact ih _ (fun x hx => hne x (by simp [hx])) (foldl_packstripByte_table_ge cfg c st htb)

/-- With `EOI_IS_EOD` set on nonempty input, `encode` is the byte loop over
the whole input after the single initial clear, followed by the end-of-data
call — independently of the strip size. -/
theorem encode_true_canon (cfg : Cfg) (he : cfg.eoiIsEod = true) (s : ℕ) (hs : 0 < s)
    (input : List ℕ) (hne : input ≠ []) :
    encode cfg s input =
      packstrip cfg []
        (input.foldl (packstripByte cfg) (clear_string_table cfg (initEncSt cfg))) := by
  have hchunk : stripChunks s input = input.take s :: stripChunks s (input.drop s) := by
    rw [stripChunks.eq_def, if_neg (by push_neg; exact ⟨by omega, hne⟩)]
  have htake : input.take s ≠ [] := by
    simp only [ne_eq, List.take_eq_nil_iff]
    push_neg
    exact ⟨by omega, hne⟩
  have hclear : 256 ≤ (clear_string_table cfg (initEncSt cfg)).table.length := by
    obtain ⟨-, -, -, htb⟩ := clear_string_table_fields cfg (initEncSt cfg)
    rw [htb, initStringTable_length]
  rw [encode]
  simp only [he, if_true]
  rw [hchunk, List.foldl_cons,
    packstrip_true_first cfg (initEncSt cfg) (input.take s) he htake rfl,
    foldl_packstrip_true cfg he (stripChunks s (input.drop s)) _
      (fun x hx => stripChunks_mem_ne_nil s (input.drop s) x (by omega) hx)
      (foldl_packstripByte_table_ge cfg (input.take s) _ hclear),
    stripChunks_flatten s (input.drop s) (by omega),
    ← List.foldl_append, List.take_append_drop]

/-- With `EOI_IS_EOD` set, the encoder's output does not depend on the strip
size at all (so no per-strip framing happens). -/
theorem encode_true_stripsize_invariant (cfg : Cfg) (he : cfg.eoiIsEod = true)
    (s1 s2 : ℕ) (h1 : 0 < s1) (h2 : 0 < s2) (input : List ℕ) :
    encode cfg s1 input = encode cfg s2 input := by
  by_cases hne : input = []
  · subst hne
    have h0 : ∀ s : ℕ, stripChunks s ([] : List ℕ) = [] := by
      intro s
      rw [stripChunks.eq_def]
      simp
    rw [encode, encode, h0, h0]
  · rw [encode_true_canon cfg he s1 h1 input hne, encode_true_canon cfg he s2 h2 input hne]

/-- The configuration `minbits = maxbits = 9` (both are parameters of
`lzw.encode`), with `EOI_IS_EOD` set. -/
def cfg99 : Cfg :=
  { eoiIsEod := true, minbits := 9, maxbits := 9 }

/-- One miss iteration of the `packstrip` loop under `cfg99`: `write_code`
on a data code, then `add_table_entry` (lzw.py lines 489-493), here with a
single-byte entry. -/
def encCycle99 (st : EncSt) (c : ℕ) : EncSt :=
  add_table_entry [c] (write_code cfg99 (some c) st)

/-- The write/add cycle iterated on a list of data codes, starting from the
strip-start state (`clear_string_table` of the initial encoder state). -/
def encCycleRun (cs : List ℕ) : EncSt :=
  cs.foldl encCycle99 (clear_string_table cfg99 (initEncSt cfg99))

/-- `write_code`'s table: reset exactly by a dictionary-full clear. -/
theorem write_code_data_table (cfg : Cfg) (c : ℕ) (st : EncSt)
    (h1 : c ≠ CLEAR_CODE) (h2 : c ≠ END_OF_INFO_CODE) :
    (write_code cfg (some c) st).table =
      (if st.writecount + 1 + 2 = 2 ^ st.bitlength ∧ ¬ st.bitlength < cfg.maxbits
       then initStringTable else st.table) := by
  have hc1 : ¬ (some c = some CLEAR_CODE) := by simpa using h1
  have hc2 : ¬ (some c = some END_OF_INFO_CODE) := by simpa using h2
  have h3 : ¬ ((some CLEAR_CODE : Option ℕ) = some END_OF_INFO_CODE) := by
    simp [CLEAR_CODE, END_OF_INFO_CODE]
  have h4 : ¬ (CODE_SIZE + 2 = 2 ^ cfg.minbits) := by
    intro hcc
    exact two_pow_ne_258 _ (by rw [← hcc]; rfl)
  rw [write_code, writeCodeCore]
  by_cases htr : st.writecount + 1 + 2 = 2 ^ st.bitlength
  · by_cases hbl : st.bitlength < cfg.maxbits
    · simp [hc1, hc2, htr, hbl]
    · simp [hc1, hc2, htr, hbl, clear_string_table, writeCodeCore, h3, h4]
  · simp [hc1, hc2, htr]

theorem add_table_entry_fields (entry : List ℕ) (st : EncSt) (hne : entry ≠ []) :
    (add_table_entry entry st).writecount = st.writecount ∧
    (add_table_entry entry st).bitlength = st.bitlength ∧
    (add_table_entry entry st).table = st.table ++ [(entry, st.table.length + 2)] := by
  rw [add_table_entry, if_neg hne]
  exact ⟨rfl, rfl, rfl⟩

/-- A write/add cycle away from the dictionary-full trigger: the write count
and the table grow by one, the bit length stays 9 (it equals `maxbits`), and
the new entry's code is `len(table) + 2`. -/
theorem encCycle99_noclear (st : EncSt) (c : ℕ)
    (h1 : c ≠ CLEAR_CODE) (h2 : c ≠ END_OF_INFO_CODE)
    (hbl : st.bitlength = 9) (hwc : st.writecount + 3 ≠ 512) :
    (encCycle99 st c).writecount = st.writecount + 1 ∧
    (encCycle99 st c).bitlength = 9 ∧
    (encCycle99 st c).table = st.table ++ [([c], st.table.length + 2)] ∧
    (encCycle99 st c).trace = st.trace ++ [(c, 9)] := by
  obtain ⟨hwc', hbl', htr'⟩ := write_code_data cfg99 c st h1 h2
  have htb' := write_code_data_table cfg99 c st h1 h2
  have hcond : ¬ (st.writecount + 1 + 2 = 2 ^ st.bitlength) := by
    rw [hbl]
    norm_num
    omega
  rw [if_neg (fun hx => hcond hx.1)] at hwc' htb'
  rw [if_neg hcond] at hbl'
  rw [if_neg (fun hx => hcond hx.1)] at htr'
  obtain ⟨a1, a2, a3⟩ :=
    add_table_entry_fields [c] (write_code cfg99 (some c) st) (by simp)
  rw [encCycle99]
  refine ⟨by rw [a1, hwc'], by rw [a2, hbl', hbl], ?_, ?_⟩
  · rw [a3, htb']
  · rw [add_table_entry_trace, htr', hbl]
    simp

/-- The write/add cycle at the dictionary-full trigger (`writecount = 509`
at 9-bit width): `write_code` clears the table, yet the pending
`add_table_entry` still runs and puts the entry at code 258 of the fresh
table, leaving the new table one entry ahead of `writecount`. -/
theorem encCycle99_clear (st : EncSt) (c : ℕ)
    (h1 : c ≠ CLEAR_CODE) (h2 : c ≠ END_OF_INFO_CODE)
    (hbl : st.bitlength = 9) (hwc : st.writecount = 509) :
    (encCycle99 st c).writecount = 256 ∧
    (encCycle99 st c).bitlength = 9 ∧
    (encCycle99 st c).table = initStringTable ++ [([c], 258)] ∧
    (encCycle99 st c).trace = st.trace ++ [(c, 9), (CLEAR_CODE, 9)] := by
  obtain ⟨hwc', hbl', htr'⟩ := write_code_data cfg99 c st h1 h2
  have htb' := write_code_data_table cfg99 c st h1 h2
  have hcond : st.writecount + 1 + 2 = 2 ^ st.bitlength := by
    rw [hbl, hwc]
    norm_num
  have hmax : ¬ st.bitlength < cfg99.maxbits := by
    rw [hbl]
    simp [cfg99]
  rw [if_pos ⟨hcond, hmax⟩] at hwc' htb'
  rw [if_pos hcond, if_neg hmax] at hbl'
  rw [if_pos ⟨hcond, hmax⟩] at htr'
  obtain ⟨a1, a2, a3⟩ :=
    add_table_entry_fields [c] (write_code cfg99 (some c) st) (by simp)
  rw [encCycle99]
  refine ⟨?_, ?_, ?_, ?_⟩
  · rw [a1, hwc']
    rfl
  · rw [a2, hbl']
    rfl
  · rw [a3, htb', initStringTable_length]
  · rw [add_table_entry_trace, htr', hbl]
    simp [cfg99, CLEAR_CODE]

/-- A clear-free phase of write/add cycles: `writecount` and the table each
grow by the number of codes, the bit length stays 9, and no ClearCode is
traced. -/
theorem encCycleRun_phase (cs : List ℕ) :
    ∀ st : EncSt, (∀ c ∈ cs, c ≠ CLEAR_CODE ∧ c ≠ END_OF_INFO_CODE) →
      st.bitlength = 9 → st.writecount + cs.length ≤ 509 →
      (cs.foldl encCycle99 st).writecount = st.writecount + cs.length ∧
      (cs.foldl encCycle99 st).bitlength = 9 ∧
      (cs.foldl encCycle99 st).table.length = st.table.length + cs.length ∧
      ((cs.foldl encCycle99 st).trace.map Prod.fst).count CLEAR_CODE =
        (st.trace.map Prod.fst).count CLEAR_CODE := by
  induction cs with
  | nil =>
    intro st _ hbl _
    exact ⟨by simp, hbl, by simp, rfl⟩
  | cons c cs ih =>
    intro st hdata hbl hwc
    obtain ⟨hc1, hc2⟩ := hdata c (by simp)
    have hstep : st.writecount + 3 ≠ 512 := by
      simp only [List.length_cons] at hwc
      omega
    obtain ⟨s1, s2, s3, s4⟩ := encCycle99_noclear st c hc1 hc2 hbl hstep
    rw [List.foldl_cons]
    obtain ⟨r1, r2, r3, r4⟩ := ih (encCycle99 st c)
      (fun x hx => hdata x (by simp [hx]))
      s2
      (by rw [s1]; simp only [List.length_cons] at hwc; omega)
    refine ⟨?_, r2, ?_, ?_⟩
    · rw [r1, s1]
      simp only [List.length_cons]
      omega
    · rw [r3, s3]
      simp only [List.length_append, List.length_cons, List.length_nil]
      omega
    · rw [r4, s4]
      have : c ≠ CLEAR_CODE := hc1
      simp only [List.map_append, List.map_cons, List.map_nil, List.count_append]
      have hone : ([c] : List ℕ).count CLEAR_CODE = 0 := by
        simp [List.count_cons, this]
      rw [hone]
      omega

/-- The doctest input bytes `b'\x07\x07\x07\x08\x08\x07\x07\x06\x06'`
(lzw.py line 308). -/
def tiffSample : List ℕ :=
  [7, 7, 7, 8, 8, 7, 7, 6, 6]

end Lzw

namespace Claims

open Packbits

unseal packOuter packInner unpack shipRun in
/-- C4 counterexample: `pack(b'111aaaaaaaabbbdccc5555555555s')` is not the
14-byte string `fe 31 f9 61 fe 62 00 64 fe 63 f7 35 00 73` the claim
states: `purge(chunks, True)` (packbits.py lines 116-122) appends the
no-op chunk `[0, b'\x80']` before shipping, so the real output carries a
trailing `80` byte. -/
theorem c4_pack_sample_counterexample :
    pack sampleInput ≠ claimedPackOutput := by decide

unseal packOuter packInner unpack shipRun in
/-- C4 (amended): `pack(b'111aaaaaaaabbbdccc5555555555s')` yields
`fe 31 f9 61 fe 62 00 64 fe 63 f7 35 00 73 80` (the claimed bytes plus the
trailing `80` end-of-data no-op), `unpack` of that output returns the
original string, and for every byte string `B`,
`unpack(pack(B)) == B`. -/
theorem c4_packbits_roundtrip_amended :
    pack sampleInput = claimedPackOutput ++ [128] ∧
    unpack (claimedPackOutput ++ [128]) = sampleInput ∧
    ∀ B : List ℕ, unpack (pack B) = B := by
  refine ⟨by decide, by decide, unpack_pack⟩

/-- C8: the PackBits decoder handles each header byte `n` as follows: for
`n ∈ [0, 127]` it copies the next `n + 1` available input bytes literally
and continues; `n = 128` is a no-op; for `n ∈ [129, 255]` it reads one
byte and emits it exactly `257 - n` times (between 2 and 128 repeats);
and it terminates at end of input. -/
theorem c8_unpack_header_cases (n b : ℕ) (rest : List ℕ) :
    (n ≤ 127 → unpack (n :: rest) =
      rest.take (n + 1) ++ unpack (rest.drop (n + 1))) ∧
    (unpack (128 :: rest) = unpack rest) ∧
    (129 ≤ n → n ≤ 255 → unpack (n :: b :: rest) =
      List.replicate (257 - n) b ++ unpack rest ∧
      2 ≤ 257 - n ∧ 257 - n ≤ 128) ∧
    unpack [] = [] := by
  refine ⟨?_, unpack_noop rest, ?_, unpack_nil⟩
  · intro h
    exact unpack_literal n rest (by omega)
  · intro h1 h2
    exact ⟨unpack_replicate n b rest (by omega), by omega, by omega⟩

/-- C8 witness: the three header forms at concrete inputs. -/
theorem c8_unpack_header_cases_witness :
    (2 ≤ 127 ∧ unpack [2, 10, 11, 12] =
      [10, 11, 12].take 3 ++ unpack ([10, 11, 12].drop 3)) ∧
    unpack [128, 254, 7] = unpack [254, 7] ∧
    (129 ≤ 254 ∧ 254 ≤ 255 ∧ unpack [254, 7] =
      List.replicate 3 7 ++ unpack [] ∧ 2 ≤ 3 ∧ 3 ≤ 128) := by
  obtain ⟨h1, h2, h3, h4⟩ := c8_unpack_header_cases 2 0 [10, 11, 12]
  obtain ⟨g1, g2, g3, g4⟩ := c8_unpack_header_cases 254 7 [128, 254, 7]
  obtain ⟨r1, r2, r3⟩ := (c8_unpack_header_cases 254 7 []).2.2.1
    (by omega) (by omega)
  exact ⟨⟨by omega, h1 (by omega)⟩,
    (c8_unpack_header_cases 128 0 [254, 7]).2.1,
    by omega, by omega, r1, by omega, by omega⟩

unseal unpack in
/-- C10 counterexample: when the input ends mid-run, `packbits.unpack`
returns normally with the bytes that were available instead of raising an
error.  A literal header promising 6 bytes with only 2 remaining returns
those 2 bytes; a replicate header with no following byte returns nothing.
(`instream.read` just returns short data at end of file, packbits.py
lines 45 and 51, and no exception is raised.) -/
theorem c10_unpack_truncated_counterexample :
    unpack [5, 1, 2] = [1, 2] ∧ unpack [250] = [] := by decide

/-- C10 (amended): at end of file in the middle of a run, `unpack`
terminates normally, emitting exactly the bytes that were available: a
literal header `n < 128` with fewer than `n + 1` bytes remaining copies
just the remainder, and a replicate header with no following byte emits
nothing.  No error is raised. -/
theorem c10_unpack_truncated_amended (n m : ℕ) (rest : List ℕ)
    (h1 : n < 128) (h2 : rest.length < n + 1) (h3 : 128 < m) :
    unpack (n :: rest) = rest ∧ unpack [m] = [] := by
  constructor
  · rw [unpack_literal n rest h1,
      List.take_of_length_le (by omega), List.drop_of_length_le (by omega),
      unpack_nil, List.append_nil]
  · exact unpack_replicate_eof m h3

/-- C10 witness: the amended statement at the counterexample inputs. -/
theorem c10_unpack_truncated_amended_witness :
    5 < 128 ∧ ([1, 2] : List ℕ).length < 6 ∧ 128 < 250 ∧
    unpack [5, 1, 2] = [1, 2] ∧ unpack [250] = [] := by
  obtain ⟨h1, h2⟩ := c10_unpack_truncated_amended 5 250 [1, 2]
    (by omega) (by norm_num) (by omega)
  exact ⟨by omega, by norm_num, by omega, h1, h2⟩

/-- C2: for any run of data codes (neither ClearCode nor
EndOfInformation) written since a table clear, as long as the encoder has
not yet hit the dictionary-full clear (at most 3837 codes), the encoder's
bit length after writing them (per `write_code`'s
`(writecount + 2) == 2 ** bitlength` rule, lzw.py lines 394-398) equals
the decoder's bit length after the matching `insert` calls (per the
`bit_length(newkey + 2) == bit_length(newkey + 1) + 1` rule, lzw.py lines
206-211).  The decoder inserts one table entry per data code starting
with the second after a clear, so after `L` codes it has made `L - 1`
inserts; both sides then hold `min 12 (bit_length (258 + L))` bits, so
every code is read at the width it was written and the increments (after
codes 254, 766 and 1790 since the clear, i.e. entries 510, 1022 and 2046)
coincide. -/
theorem c2_bitlength_lockstep (e : Bool) (cs : List ℕ)
    (hsp : ∀ c ∈ cs, c ≠ Lzw.CLEAR_CODE ∧ c ≠ Lzw.END_OF_INFO_CODE)
    (hlen : cs.length ≤ 3837) :
    (Lzw.encRunCodes e cs).bitlength = (Lzw.decAfter e (cs.length - 1)).bitlength := by
  obtain ⟨-, henc⟩ := Lzw.encRunCodes_closed e cs hsp hlen
  obtain ⟨-, hdec⟩ := Lzw.decAfter_closed e (cs.length - 1)
  rw [henc, hdec]
  rcases Nat.eq_zero_or_pos cs.length with h0 | hpos
  · rw [h0]
    have h258 : Lzw.bit_length 258 = 9 := by decide
    have h259 : Lzw.bit_length 259 = 9 := by decide
    simp only [Nat.add_zero, Nat.zero_sub, h258, h259]
  · have : 259 + (cs.length - 1) = 258 + cs.length := by omega
    rw [this]

/-- C2 witness: after three data codes both sides still hold 9 bits. -/
theorem c2_bitlength_lockstep_witness :
    (∀ c ∈ [0, 1, 2], c ≠ Lzw.CLEAR_CODE ∧ c ≠ Lzw.END_OF_INFO_CODE) ∧
    ([0, 1, 2] : List ℕ).length ≤ 3837 ∧
    (Lzw.encRunCodes false [0, 1, 2]).bitlength =
      (Lzw.decAfter false 2).bitlength := by
  refine ⟨by decide, by norm_num, ?_⟩
  exact c2_bitlength_lockstep false [0, 1, 2] (by decide) (by norm_num)

/-- C1: a component-level exhibit of the round-trip bug at
dictionary-full.  After 3838 data codes since a clear (`writecount`
4094), the encoder's trigger fires at `maxbits`; `clear_string_table`
(lzw.py lines 350-358) resets `bitlength` to `minbits = 9` *before*
calling `write_code(CLEAR_CODE)`, so the ClearCode is emitted in 9 bits —
the last trace entry is `(256, 9)` — although `add_table_entry`'s own
docstring (lzw.py lines 411-412) says "we write out a 12-bit ClearCode"
and the decoder, having filled entry 4094 after those codes, still reads
12-bit codes.  Decoding the encoder's output therefore no longer returns
the input. -/
theorem c1_dictfull_clearcode_width_bug (e : Bool) :
    (Lzw.write_code (Lzw.stdCfg e) (some 0)
      (Lzw.encRunCodes e (List.replicate 3837 0))).trace.getLast? =
      some (Lzw.CLEAR_CODE, 9) ∧
    (Lzw.decAfter e 3837).bitlength = 12 := by
  have hsp : ∀ c ∈ List.replicate 3837 (0 : ℕ),
      c ≠ Lzw.CLEAR_CODE ∧ c ≠ Lzw.END_OF_INFO_CODE := by
    intro c hc
    have : c = 0 := List.eq_of_mem_replicate hc
    subst this
    constructor <;> simp [Lzw.CLEAR_CODE, Lzw.END_OF_INFO_CODE]
  obtain ⟨hwc, hbl⟩ := Lzw.encRunCodes_closed e (List.replicate 3837 0) hsp
    (by simp only [List.length_replicate]; exact le_rfl)
  have h4095 : Lzw.bit_length 4095 = 12 := by decide
  have h4096 : Lzw.bit_length 4096 = 13 := by decide
  rw [List.length_replicate] at hwc hbl
  have hbl12 : (Lzw.encRunCodes e (List.replicate 3837 0)).bitlength = 12 := by
    rw [hbl]
    norm_num [h4095]
  constructor
  · obtain ⟨-, -, htr⟩ := Lzw.write_code_data (Lzw.stdCfg e) 0
      (Lzw.encRunCodes e (List.replicate 3837 0))
      (by simp [Lzw.CLEAR_CODE]) (by simp [Lzw.END_OF_INFO_CODE])
    rw [htr, hwc, hbl12]
    have hcond : 256 + 3837 + 1 + 2 = 2 ^ 12 ∧
        ¬ (12 : ℕ) < (Lzw.stdCfg e).maxbits := by
      constructor
      · norm_num
      · simp [Lzw.stdCfg]
    rw [if_pos hcond]
    have : (Lzw.stdCfg e).minbits = 9 := rfl
    rw [this, List.getLast?_concat]
  · obtain ⟨-, hdec⟩ := Lzw.decAfter_closed e 3837
    rw [hdec]
    norm_num [h4096]

/-- C5: when `nextcode` (lzw.py lines 157-179) extracts a code equal to
EndOfInformation, it raises `ValueError('nonzero bits remaining after
EOI')` exactly when some remaining buffered bit is nonzero, and otherwise
discards the buffer and yields the code; when the input ends with fewer
than `bitlength` bits buffered and no EOI was consumed, the generator
simply ends — a nonzero residue there is not an error. -/
theorem c5_eoi_residue (bl : ℕ) (bs : List Bool) (byte : ℕ) (rest : List ℕ) :
    (bl ≤ (bs ++ Lzw.bits8 byte).length →
      Lzw.bitsToNat ((bs ++ Lzw.bits8 byte).take bl) = Lzw.END_OF_INFO_CODE →
      (((bs ++ Lzw.bits8 byte).drop bl).any id = true →
        Lzw.nextcodeExtract bl bs (byte :: rest) =
          .error "nonzero bits remaining after EOI") ∧
      (((bs ++ Lzw.bits8 byte).drop bl).any id = false →
        Lzw.nextcodeExtract bl bs (byte :: rest) =
          .ok (some (Lzw.END_OF_INFO_CODE, [], rest)))) ∧
    (∀ bs2 : List Bool, Lzw.nextcodeExtract bl bs2 [] = .ok none) := by
  constructor
  · intro h heoi
    constructor
    · intro hres
      rw [Lzw.nextcodeExtract, if_pos h, if_pos heoi, if_pos hres]
    · intro hres
      rw [Lzw.nextcodeExtract, if_pos h, if_pos heoi,
        if_neg (by rw [hres]; simp), heoi]
  · intro bs2
    rw [Lzw.nextcodeExtract]

/-- C5 witness: with 9-bit codes, the buffered byte `0x80` followed by
input byte `0xC0` makes the code 257 with residue `1000000` (error), and
followed by `0x80` makes the code 257 with residue `0000000` (accepted,
buffer discarded); a lone nonzero buffered bit at end of input yields no
code and no error. -/
theorem c5_eoi_residue_witness :
    Lzw.nextcodeExtract 9 (Lzw.bits8 128) [192] =
      .error "nonzero bits remaining after EOI" ∧
    Lzw.nextcodeExtract 9 (Lzw.bits8 128) [128] =
      .ok (some (Lzw.END_OF_INFO_CODE, [], [])) ∧
    Lzw.nextcodeExtract 9 [true] [] = .ok none := by
  refine ⟨?_, ?_, ?_⟩
  · exact ((c5_eoi_residue 9 (Lzw.bits8 128) 192 []).1 (by decide)
      (by decide)).1 (by decide)
  · exact ((c5_eoi_residue 9 (Lzw.bits8 128) 128 []).1 (by decide)
      (by decide)).2 (by decide)
  · exact (c5_eoi_residue 9 [] 0 []).2 [true]

/-- C6: a code that is neither in the decode table nor equal to the
current table size (the immediate-next code, the only legitimate KωK
case) makes the `decode` loop body raise the invalid-LZW `ValueError`
(lzw.py lines 253-265; the accompanying log line hints the data may be
PackBits) instead of emitting output.  The table hypothesis states the
keys are exactly `0 .. len - 1`, as `newdict` and `insert` maintain. -/
theorem c6_invalid_code (cfg : Lzw.Cfg) (sp : Bool) (st : Lzw.DecSt) (code : ℕ)
    (hcontig : ∀ k, ((st.table.lookup k).isSome) ↔ k < st.table.length)
    (hnotin : st.table.lookup code = none) (hne : code ≠ st.table.length) :
    Lzw.decodeStep cfg sp st code = .error "Invalid LZW data" := by
  have hge : ¬ code < st.table.length := by
    intro hc
    have := (hcontig code).mpr hc
    rw [hnotin] at this
    simp at this
  have h2 : st.table.lookup (code - 1) = none := by
    cases hx : st.table.lookup (code - 1) with
    | none => rfl
    | some v =>
      have : code - 1 < st.table.length := by
        rw [← hcontig]
        rw [hx]
        rfl
      omega
  rw [Lzw.decodeStep]
  simp [hnotin, h2]

/-- C6 witness: code 300 against the freshly initialised table of 258
entries. -/
theorem c6_invalid_code_witness :
    Lzw.decodeStep (Lzw.stdCfg false) true
      (Lzw.initDecSt (Lzw.stdCfg false) true) 300 = .error "Invalid LZW data" := by
  have hcontig : ∀ k,
      (((Lzw.initDecSt (Lzw.stdCfg false) true).table.lookup k).isSome) ↔
        k < (Lzw.initDecSt (Lzw.stdCfg false) true).table.length := by
    intro k
    exact Lzw.newdict_true_contig k
  exact c6_invalid_code (Lzw.stdCfg false) true _ 300 hcontig (by decide)
    (by rw [show (Lzw.initDecSt (Lzw.stdCfg false) true).table.length = 258
      from Lzw.newdict_true_length]; omega)

unseal Lzwfilter.codeReaderNext in
/-- C9 counterexample: `CodeReader.__next__` (lzwfilter.py lines 56-72)
does emit a final code built from a partial buffer: at end of input with
the 8 bits of the single byte `0x55` buffered (fewer than the 9-bit code
width), it zero-pads them and yields the code `0b010101010 = 170` — its
own doctest (line 40-41) shows the same behaviour — rather than yielding
no further codes as the claim states. -/
theorem c9_codereader_partial_counterexample :
    Lzwfilter.codeReaderNext 9 [] [85] = some (170, [], []) := by decide

/-- C9 (amended): `lzw.nextcode` never emits a partial final code — at
end of input with fewer than `bitlength` bits buffered it yields nothing —
while `lzwfilter.CodeReader.__next__` zero-pads the remaining bits to
`bitlength` and emits one final code whenever the buffer is nonempty,
yielding nothing only when the buffer is empty at end of input. -/
theorem c9_partial_code_amended (bl : ℕ) (bs : List Bool) (hbl : 0 < bl) :
    (∀ bs2 : List Bool, Lzw.nextcodeExtract bl bs2 [] = .ok none) ∧
    (bs ≠ [] → bs.length < bl →
      Lzwfilter.codeReaderNext bl bs [] =
        some (Lzw.bitsToNat (bs ++ List.replicate (bl - bs.length) false), [], [])) ∧
    Lzwfilter.codeReaderNext bl [] [] = none := by
  refine ⟨?_, ?_, ?_⟩
  · intro bs2
    rw [Lzw.nextcodeExtract]
  · intro hne hlt
    rw [Lzwfilter.codeReaderNext, if_neg (by omega)]
    rw [if_neg hne]
  · rw [Lzwfilter.codeReaderNext,
      if_neg (show ¬ 
        bl ≤ ([] : List Bool).length by simp; omega)]
    rw [if_pos rfl]

unseal Lzwfilter.codeReaderNext in
/-- C9 witness: the amended statement at 9-bit width with the byte `0x55`
buffered. -/
theorem c9_partial_code_amended_witness :
    0 < 9 ∧
    Lzw.nextcodeExtract 9 [true] [] = .ok none ∧
    Lzwfilter.codeReaderNext 9 (Lzw.bits8 85) [] = some (170, [], []) ∧
    Lzwfilter.codeReaderNext 9 [] [] = none := by
  obtain ⟨h1, h2, h3⟩ := c9_partial_code_amended 9 (Lzw.bits8 85) (by omega)
  refine ⟨by omega, h1 [true], ?_, h3⟩
  rw [h2 (by decide) (by decide)]
  decide

set_option maxRecDepth 100000 in
unseal Lzw.stripChunks in
/-- C3 counterexample: on the nine-byte doctest input split into three
strips of four bytes, the `EOI_IS_EOD`-set encoder emits one ClearCode and
one EndOfInformation in total (lax framing), while the `EOI_IS_EOD`-unset
encoder emits three of each (strict per-strip framing) — the reverse of the
claimed dialect mapping. -/
theorem c3_dialect_mapping_counterexample :
    (Lzw.stripChunks 4 Lzw.tiffSample).length = 3 ∧
    ((Lzw.encode (Lzw.stdCfg true) 4 Lzw.tiffSample).trace.map Prod.fst).count
      Lzw.CLEAR_CODE = 1 ∧
    ((Lzw.encode (Lzw.stdCfg true) 4 Lzw.tiffSample).trace.map Prod.fst).count
      Lzw.END_OF_INFO_CODE = 1 ∧
    ((Lzw.encode (Lzw.stdCfg false) 4 Lzw.tiffSample).trace.map Prod.fst).count
      Lzw.CLEAR_CODE = 3 ∧
    ((Lzw.encode (Lzw.stdCfg false) 4 Lzw.tiffSample).trace.map Prod.fst).count
      Lzw.END_OF_INFO_CODE = 3 := by
  decide

set_option maxRecDepth 100000 in
unseal Lzw.stripChunks in
/-- C3 amended: the dialect mapping is the reverse of the claim.  With
`EOI_IS_EOD` unset the codec is the strict per-strip dialect: every nonempty
strip's trace contribution begins with a ClearCode at `minbits` width and
ends with EndOfInformation, possibly followed by one dictionary-full
ClearCode.  With `EOI_IS_EOD` set it is the lax dialect: the encoder's
output is independent of the strip size (the prefix is carried across strip
boundaries), and on the three-strip doctest input one ClearCode and one
EndOfInformation are emitted in total. -/
theorem c3_dialect_mapping_amended :
    (∀ (cfg : Lzw.Cfg) (st : Lzw.EncSt) (strip : List ℕ),
      cfg.eoiIsEod = false → strip ≠ [] →
      ∃ mid w tail,
        (Lzw.packstrip cfg strip st).trace =
          st.trace ++
            (Lzw.CLEAR_CODE, cfg.minbits) :: (mid ++ (Lzw.END_OF_INFO_CODE, w) :: tail) ∧
        (tail = [] ∨ tail = [(Lzw.CLEAR_CODE, cfg.minbits)])) ∧
    (∀ (cfg : Lzw.Cfg) (s1 s2 : ℕ) (input : List ℕ),
      cfg.eoiIsEod = true → 0 < s1 → 0 < s2 →
      Lzw.encode cfg s1 input = Lzw.encode cfg s2 input) ∧
    ((Lzw.encode (Lzw.stdCfg true) 4 Lzw.tiffSample).trace.map Prod.fst).count
      Lzw.CLEAR_CODE = 1 ∧
    ((Lzw.encode (Lzw.stdCfg true) 4 Lzw.tiffSample).trace.map Prod.fst).count
      Lzw.END_OF_INFO_CODE = 1 := by
  refine ⟨?_, ?_, ?_, ?_⟩
  · exact fun cfg st strip he hne => Lzw.packstrip_false_trace cfg st strip he hne
  · exact fun cfg s1 s2 input he h1 h2 =>
      Lzw.encode_true_stripsize_invariant cfg he s1 s2 h1 h2 input
  · decide
  · decide

set_option maxRecDepth 100000 in
/-- C7: once a dictionary-full ClearCode has fired, the pending
`add_table_entry` leaves the fresh table one entry ahead of `writecount`,
so the next generation assigns table code `511 = 2^maxbits − 1` with no
accompanying clear: after 507 of the encoder loop's write/add cycles under
`minbits = maxbits = 9`, code 511 sits in the table while the trace holds
only the strip-start ClearCode and the single dictionary-full ClearCode —
the claimed rule would have a ClearCode pre-empt code `2^maxbits − 1` ever
being assigned. -/
theorem c7_dictfull_offbyone_bug :
    (511 : ℕ) = 2 ^ Lzw.cfg99.maxbits - 1 ∧
    511 ∈ (Lzw.encCycleRun (List.replicate 507 0)).table.map Prod.snd ∧
    ((Lzw.encCycleRun (List.replicate 507 0)).trace.map Prod.fst).count
      Lzw.CLEAR_CODE = 2 := by
  have hdata : ∀ k : ℕ, ∀ c ∈ List.replicate k (0 : ℕ),
      c ≠ Lzw.CLEAR_CODE ∧ c ≠ Lzw.END_OF_INFO_CODE := by
    intro k c hc
    rw [List.eq_of_mem_replicate hc]
    exact ⟨by decide, by decide⟩
  obtain ⟨b1, b2, b3, b4⟩ :=
    Lzw.clear_string_table_fields Lzw.cfg99 (Lzw.initEncSt Lzw.cfg99)
  set st0 := Lzw.clear_string_table Lzw.cfg99 (Lzw.initEncSt Lzw.cfg99) with hst0
  have hbl0 : st0.bitlength = 9 := by
    rw [b2]
    rfl
  have hwc0 : st0.writecount = 256 := by
    rw [b1]
    rfl
  have hcnt0 : (st0.trace.map Prod.fst).count Lzw.CLEAR_CODE = 1 := by
    rw [b3]
    decide
  obtain ⟨pA1, pA2, pA3, pA4⟩ := Lzw.encCycleRun_phase (List.replicate 253 0) st0
    (hdata 253) hbl0 (by rw [hwc0]; simp only [List.length_replicate]; omega)
  set stA := (List.replicate 253 (0 : ℕ)).foldl Lzw.encCycle99 st0 with hstA
  have wcA : stA.writecount = 509 := by
    rw [pA1, hwc0]
    simp only [List.length_replicate]
  obtain ⟨qB1, qB2, qB3, qB4⟩ := Lzw.encCycle99_clear stA 0 (by decide) (by decide) pA2 wcA
  set stB := Lzw.encCycle99 stA 0 with hstB
  have lenB : stB.table.length = 257 := by
    rw [qB3]
    simp [Lzw.initStringTable_length]
  have cntB : (stB.trace.map Prod.fst).count Lzw.CLEAR_CODE = 2 := by
    rw [qB4]
    simp only [List.map_append, List.count_append]
    rw [pA4, hcnt0]
    decide
  obtain ⟨pC1, pC2, pC3, pC4⟩ := Lzw.encCycleRun_phase (List.replicate 252 0) stB
    (hdata 252) qB2 (by rw [qB1]; simp only [List.length_replicate]; omega)
  set stC := (List.replicate 252 (0 : ℕ)).foldl Lzw.encCycle99 stB with hstC
  have wcC : stC.writecount = 508 := by
    rw [pC1, qB1]
    simp only [List.length_replicate]
  have lenC : stC.table.length = 509 := by
    rw [pC3, lenB]
    simp only [List.length_replicate]
  have cntC : (stC.trace.map Prod.fst).count Lzw.CLEAR_CODE = 2 := by
    rw [pC4, cntB]
  obtain ⟨d1, d2, d3, d4⟩ := Lzw.encCycle99_noclear stC 0 (by decide) (by decide) pC2
    (by rw [wcC]; omega)
  set stD := Lzw.encCycle99 stC 0 with hstD
  have hsplit : List.replicate 507 (0 : ℕ) =
      ((List.replicate 253 0 ++ [0]) ++ List.replicate 252 0) ++ [0] := by
    decide
  have hrun : Lzw.encCycleRun (List.replicate 507 0) = stD := by
    rw [Lzw.encCycleRun, hsplit, List.foldl_append, List.foldl_append, List.foldl_append]
    simp only [List.foldl_cons, List.foldl_nil]
  refine ⟨by decide, ?_, ?_⟩
  · rw [hrun, d3, lenC]
    simp
  · rw [hrun, d4]
    simp only [List.map_append, List.count_append]
    rw [cntC]
    decide

end Claims
